import Mathlib

/-!
# parsort: fork-join quicksort over a shared buffer

A shallow embedding of `parsort.c`.

* The buffer (`int64_t *arr`, a shared `mmap` of the file) is a `List Int`; only
  comparisons are performed on elements, so no element arithmetic can overflow.
* `unsigned long` indices are natural numbers reduced modulo `2 ^ 64` wherever the
  source increments, decrements or adds.
* Reading or writing `arr[i]` with `i` outside the buffer is undefined behaviour in C;
  the embedding stops with `Fault.outOfBounds`.  A failing `assert` stops with
  `Fault.assertion`.  Loops and recursion are driven by a fuel argument and stop with
  `Fault.outOfFuel` when it is exhausted.
* `fork` and `waitpid` are resolved by an oracle indexed by the position of the
  spawned process in the recursion tree (`Fate`): `fork` may fail, `waitpid` may fail,
  and a worker may be terminated abnormally.  Otherwise `waitpid` reports the exit code
  the worker passed to `_exit`.
* A worker that is created runs `quicksort` on its region of the same buffer.  The two
  workers of a call work on disjoint regions, so the embedding runs the left worker
  first and the right worker second.  A fault in a worker leaves the whole run without
  a defined result.
* Every call returns, besides its `int`, the buffer and the log of the `fork` and
  `waitpid` calls made in its recursion tree, each with the process that made it.
* The fuel is never the reason for a missing result: `partition_fuel` shows that the
  scan loop of `partition` never exhausts its fuel and `quicksort_fuel` that
  `quicksort` never exhausts a fuel above the length of its region.
-/

namespace Parsort

/-- Number of values of an `unsigned long` (64-bit). -/
def ULONG_SIZE : Nat := 2 ^ 64

/-- Reasons for which a run of the embedded program has no defined result. -/
inductive Fault where
  | outOfBounds
  | assertion
  | outOfFuel
  deriving DecidableEq, Repr

/-- Comparator `compare` of the source, on the pointed-to values. -/
def compare (left_elt right_elt : Int) : Int :=
  if left_elt < right_elt then -1
  else if left_elt > right_elt then 1
  else 0

/-- Source function `swap`: `tmp = arr[i]; arr[i] = arr[j]; arr[j] = tmp`. -/
def swap (arr : List Int) (i j : Nat) : Except Fault (List Int) :=
  match arr[i]? with
  | none => .error .outOfBounds
  | some tmp =>
    match arr[j]? with
    | none => .error .outOfBounds
    | some aj => .ok ((arr.set i aj).set j tmp)

/-- State of the scan loop of `partition` when the loop is left. -/
structure LoopExit where
  arr : List Int
  left_index : Nat
  right_index : Nat
  deriving DecidableEq, Repr

/-- The `while ( left_index <= right_index )` loop of `partition`; one unit of fuel
per iteration (the final, failing loop test also takes one). -/
def partition_loop (pivot_val : Int) :
    Nat → List Int → Nat → Nat → Except Fault LoopExit
  | 0, _, _, _ => .error .outOfFuel
  | fuel + 1, arr, left_index, right_index =>
    if left_index ≤ right_index then
      match arr[left_index]? with
      | none => .error .outOfBounds
      | some al =>
        if al < pivot_val then
          partition_loop pivot_val fuel arr ((left_index + 1) % ULONG_SIZE) right_index
        else
          match arr[right_index]? with
          | none => .error .outOfBounds
          | some ar =>
            if ar ≥ pivot_val then
              partition_loop pivot_val fuel arr left_index
                ((right_index + (ULONG_SIZE - 1)) % ULONG_SIZE)
            else
              match swap arr left_index right_index with
              | .error f => .error f
              | .ok arr1 => partition_loop pivot_val fuel arr1 left_index right_index
    else .ok ⟨arr, left_index, right_index⟩

/-- Source function `partition`; returns the rearranged buffer and the pivot index.
The scan loop is given `2 * len + 1` iterations of fuel. -/
def partition (arr : List Int) (start end_ : Nat) : Except Fault (List Int × Nat) :=
  if ¬ (end_ > start) then .error .assertion
  else
    let len := end_ - start
    if ¬ (len ≥ 2) then .error .assertion
    else
      let pivot_index := (start + len / 2) % ULONG_SIZE
      match arr[pivot_index]? with
      | none => .error .outOfBounds
      | some pivot_val =>
        match swap arr pivot_index (end_ - 1) with
        | .error f => .error f
        | .ok arr1 =>
          let left_index := start
          let right_index := (start + (len - 2)) % ULONG_SIZE
          match partition_loop pivot_val (2 * len + 1) arr1 left_index right_index with
          | .error f => .error f
          | .ok ex =>
            match swap ex.arr ex.left_index (end_ - 1) with
            | .error f => .error f
            | .ok arr2 => .ok (arr2, ex.left_index)

/-- Library routine `qsort( arr + start, len, sizeof(int64_t), compare )`: sorts the
`len` elements from index `start` with the comparator, leaving the rest in place.
A region that leaves the buffer is an out-of-bounds access. -/
def qsort (arr : List Int) (start len : Nat) : Except Fault (List Int) :=
  if start + len ≤ arr.length then
    .ok (arr.take start
      ++ ((arr.drop start).take len).insertionSort (fun a b => compare a b ≤ 0)
      ++ arr.drop (start + len))
  else .error .outOfBounds

/-- The C struct `child_state_t`. -/
structure child_state_t where
  pid : Int
  waited : Int
  wait_status : Int
  fork_failed : Int
  deriving DecidableEq, Repr

/-- Modelled from the spec: the macro `WIFEXITED` of `<sys/wait.h>` is not part of the
repository; "exited normally" is `(status & 0x7f) == 0` in the usual layout of a wait
status. -/
def WIFEXITED (status : Int) : Bool := status % 128 == 0

/-- Modelled from the spec: the macro `WEXITSTATUS` of `<sys/wait.h>` is not part of
the repository; the exit code is `(status & 0xff00) >> 8`. -/
def WEXITSTATUS (status : Int) : Int := (status / 256) % 256

/-- Modelled from the spec: the wait status the system reports for a process that
called `_exit( code )`, namely `(code & 0xff) << 8`. -/
def W_EXITCODE (code : Int) : Int := (code % 256) * 256

/-- Result of one call of `child_wait`: the returned `int`, the handle afterwards and
the process ids on which `waitpid` was invoked during the call. -/
structure WaitResult where
  ret : Int
  child : child_state_t
  calls : List Int
  deriving DecidableEq, Repr

/-- Source function `child_wait`.  The primitive `waitpid pid` answers `none` when
`waitpid` returns a negative value and `some status` otherwise. -/
def child_wait (waitpid : Int → Option Int) (child : child_state_t) : WaitResult :=
  if child.fork_failed ≠ 0 then ⟨0, child, []⟩
  else if child.waited ≠ 0 then ⟨1, child, []⟩
  else
    match waitpid child.pid with
    | none => ⟨0, { child with waited := 1, wait_status := -1 }, [child.pid]⟩
    | some status => ⟨1, { child with waited := 1, wait_status := status }, [child.pid]⟩

/-- Source function `child_succeeded`. -/
def child_succeeded (child : child_state_t) : Int :=
  if child.fork_failed ≠ 0 then 0
  else if ¬ (child.waited ≠ 0) then 0
  else if child.wait_status = -1 then 0
  else if ¬ (WIFEXITED child.wait_status = true) then 0
  else if WEXITSTATUS child.wait_status = 0 then 1 else 0

/-- What the system decides for one spawned worker. -/
structure Fate where
  /-- Value of `fork()` in the parent: `none` is a negative value, `some p` is the
  positive process id `p + 1`. -/
  fork : Option Nat
  /-- Whether `waitpid` on this worker returns a negative value. -/
  wait_fails : Bool
  /-- When `some s`, the worker is terminated abnormally and `s` is the raw status. -/
  abnormal : Option { s : Int // WIFEXITED s = false }

/-- Parent side of `quicksort_spawn`: the handle built from the value of `fork()`
(`pid < 0` or `pid > 0`; the branch `pid == 0` is the worker, see `child_body`). -/
def quicksort_spawn (fork : Option Nat) : child_state_t :=
  match fork with
  | none => { pid := -1, waited := 0, wait_status := 0, fork_failed := 1 }
  | some p => { pid := (p : Int) + 1, waited := 0, wait_status := 0, fork_failed := 0 }

/-- Exit code of a worker, `_exit( ok ? 0 : 1 )` in `quicksort_spawn`. -/
def child_exit_code (ok : Int) : Int := if ok ≠ 0 then 0 else 1

/-- The answer of `waitpid` for a worker with the given fate and exit code. -/
def waitpid_answer (fate : Fate) (exit_code : Int) : Int → Option Int :=
  fun _ =>
    if fate.wait_fails then none
    else
      match fate.abnormal with
      | some s => some s.1
      | none => some (W_EXITCODE exit_code)

/-- System calls made during a run, with the process that made them (the path from
the root process: `false` is a left worker, `true` a right worker). -/
inductive Event where
  | fork (proc : List Bool) (start end_ : Nat) (failed : Bool)
  | waitpid (proc : List Bool) (pid : Int)
  deriving DecidableEq, Repr

/-- Result of a call of `quicksort` that returns. -/
structure Run where
  ret : Int
  arr : List Int
  log : List Event
  deriving DecidableEq, Repr

/-- Child side of `quicksort_spawn`.  When `fork` failed there is no worker: the buffer
is untouched, nothing is logged, and the `ret` field is not read (`child_wait` does not
call `waitpid` on a handle with `fork_failed`).  Otherwise the worker runs its own
`quicksort` call (`self`) on its region and `ret` is the code it passes to `_exit`. -/
def child_body (self : List Int → Except Fault Run) (fork : Option Nat)
    (arr : List Int) : Except Fault Run :=
  match fork with
  | none => .ok ⟨1, arr, []⟩
  | some _ =>
    match self arr with
    | .error f => .error f
    | .ok r => .ok ⟨child_exit_code r.ret, r.arr, r.log⟩

/-- Source function `quicksort`, run by process `proc`; one unit of fuel per level of
recursion. -/
def quicksort (O : List Bool → Fate) :
    Nat → List Bool → List Int → Nat → Nat → Nat → Except Fault Run
  | 0, _, _, _, _, _ => .error .outOfFuel
  | fuel + 1, proc, arr, start, end_, par_threshold =>
    if ¬ (end_ ≥ start) then .error .assertion
    else
      let len := end_ - start
      if len < 2 then .ok ⟨1, arr, []⟩
      else if len ≤ par_threshold then
        match qsort arr start len with
        | .error f => .error f
        | .ok arr1 => .ok ⟨1, arr1, []⟩
      else
        match partition arr start end_ with
        | .error f => .error f
        | .ok (arr1, mid) =>
          let pl := proc ++ [false]
          let pr := proc ++ [true]
          let left_child := quicksort_spawn (O pl).fork
          let right_child := quicksort_spawn (O pr).fork
          match child_body (fun a => quicksort O fuel pl a start mid par_threshold)
              (O pl).fork arr1 with
          | .error f => .error f
          | .ok cl =>
            match child_body
                (fun a => quicksort O fuel pr a ((mid + 1) % ULONG_SIZE) end_ par_threshold)
                (O pr).fork cl.arr with
            | .error f => .error f
            | .ok cr =>
              let wl := child_wait (waitpid_answer (O pl) cl.ret) left_child
              let left_success : Int :=
                if wl.ret ≠ 0 ∧ child_succeeded wl.child ≠ 0 then 1 else 0
              let wr := child_wait (waitpid_answer (O pr) cr.ret) right_child
              let right_success : Int :=
                if wr.ret ≠ 0 ∧ child_succeeded wr.child ≠ 0 then 1 else 0
              .ok ⟨if left_success ≠ 0 ∧ right_success ≠ 0 then 1 else 0, cr.arr,
                [Event.fork proc start mid (O pl).fork.isNone,
                 Event.fork proc ((mid + 1) % ULONG_SIZE) end_ (O pr).fork.isNone]
                ++ cl.log ++ cr.log
                ++ wl.calls.map (Event.waitpid proc)
                ++ wr.calls.map (Event.waitpid proc)⟩

/-- Every element of `arr` at an index in `[a, b)` is smaller than `v`. -/
def lt_on (arr : List Int) (a b : Nat) (v : Int) : Prop :=
  ∀ k x, a ≤ k → k < b → arr[k]? = some x → x < v

/-- Every element of `arr` at an index in `[a, b)` is at least `v`. -/
def ge_on (arr : List Int) (a b : Nat) (v : Int) : Prop :=
  ∀ k x, a ≤ k → k < b → arr[k]? = some x → v ≤ x

/-- The elements of `arr` at the indices of `[s, e)` are in non-decreasing order. -/
def sorted_on (arr : List Int) (s e : Nat) : Prop :=
  ∀ i j x y, s ≤ i → i < j → j < e → arr[i]? = some x → arr[j]? = some y → x ≤ y

/-- The test `child_wait( &child ) && child_succeeded( &child )` of `quicksort` on the
handle of a worker with the given fate and exit code. -/
def worker_ok (fate : Fate) (code : Int) : Prop :=
  (child_wait (waitpid_answer fate code) (quicksort_spawn fate.fork)).ret ≠ 0 ∧
  child_succeeded
    (child_wait (waitpid_answer fate code) (quicksort_spawn fate.fork)).child ≠ 0

/-- What a call of `quicksort` that returns has done to the buffer. -/
def sort_post (arr : List Int) (start end_ : Nat) (r : Run) : Prop :=
  r.arr.length = arr.length ∧ r.arr.Perm arr ∧
  (∀ k, k < start ∨ end_ ≤ k → r.arr[k]? = arr[k]?) ∧
  (r.ret ≠ 0 → sorted_on r.arr start end_)

/-- Oracle under which every `fork` and `waitpid` succeeds and no worker is killed. -/
def allGood : List Bool → Fate := fun _ => ⟨some 0, false, none⟩

/-- The expression `child_wait( &child ) && child_succeeded( &child )` of `quicksort`:
its value (0 or 1) and the handle afterwards. -/
def success_test (waitpid : Int → Option Int) (child : child_state_t) :
    Int × child_state_t :=
  let w := child_wait waitpid child
  (if w.ret ≠ 0 ∧ child_succeeded w.child ≠ 0 then 1 else 0, w.child)

/-- The expression `success_test` evaluated `n + 1` times in a row on the same handle;
`waitpid k` is what the wait primitive would answer during evaluation `k`. -/
def success_test_again (waitpid : Nat → Int → Option Int) :
    Nat → child_state_t → Int × child_state_t
  | 0, child => success_test (waitpid 0) child
  | n + 1, child =>
    success_test_again (fun k => waitpid (k + 1)) n (success_test (waitpid 0) child).2

/-- The process that made a system call. -/
def Event.proc : Event → List Bool
  | .fork p _ _ _ => p
  | .waitpid p _ => p

/-- The `waitpid` call, if any, that `child_wait` makes on the fresh handle of a
worker. -/
def wait_events (proc : List Bool) (fork : Option Nat) : List Event :=
  match fork with
  | none => []
  | some p => [Event.waitpid proc ((p : Int) + 1)]

/-! ## The buffer: `swap` and `partition` -/

theorem set_set_perm_aux (arr : List Int) (i j : Nat) (hi : i < arr.length)
    (hj : j < arr.length) : ((arr.set i arr[j]).set j arr[i]).Perm arr := by
  by_cases hij : i = j
  · subst hij
    have hself : (arr.set i arr[i]).set i arr[i] = arr := by
      apply List.ext_getElem?
      intro n
      simp only [List.getElem?_set, List.length_set]
      by_cases hn : i = n
      · subst hn; simp [hi]
      · simp [hn]
    rw [hself]
  · rw [List.perm_iff_count]
    intro b
    have hj1 : j < (arr.set i arr[j]).length := by simpa using hj
    rw [List.count_set _ _ _ _ hj1, List.count_set _ _ _ _ hi]
    have hget : (arr.set i arr[j])[j] = arr[j] := by
      rw [List.getElem_set]; simp [hij]
    rw [hget]
    have hmem : arr[i] ∈ arr := List.getElem_mem hi
    have hcnt : arr[i] = b → 1 ≤ List.count b arr := by
      intro hb
      rw [List.one_le_count_iff]; exact hb ▸ hmem
    by_cases hb : arr[i] = b <;> by_cases hc : arr[j] = b <;> simp [hb, hc] <;> omega

theorem swap_ok {arr arr1 : List Int} {i j : Nat} (h : swap arr i j = .ok arr1) :
    i < arr.length ∧ j < arr.length ∧ arr1.length = arr.length ∧ arr1.Perm arr ∧
    arr1[i]? = arr[j]? ∧ arr1[j]? = arr[i]? ∧
    (∀ k, k ≠ i → k ≠ j → arr1[k]? = arr[k]?) := by
  unfold swap at h
  cases hi : arr[i]? with
  | none => simp [hi] at h
  | some tmp =>
    cases hj : arr[j]? with
    | none => simp [hi, hj] at h
    | some aj =>
      simp only [hi, hj, Except.ok.injEq] at h
      obtain ⟨hil, hie⟩ := List.getElem?_eq_some.mp hi
      obtain ⟨hjl, hje⟩ := List.getElem?_eq_some.mp hj
      subst h
      refine ⟨hil, hjl, by simp, ?_, ?_, ?_, ?_⟩
      · rw [← hie, ← hje]; exact set_set_perm_aux arr i j hil hjl
      · rw [List.getElem?_set, List.getElem?_set]
        by_cases hij : j = i
        · subst hij; simp [hil]; rw [hi] at hj; simpa using hj
        · simp [hij, hil]
      · rw [List.getElem?_set]
        simp [hjl]
      · intro k hk1 hk2
        rw [List.getElem?_set, List.getElem?_set]
        simp [Ne.symm hk1, Ne.symm hk2]

theorem ULONG_SIZE_eq : ULONG_SIZE = 18446744073709551616 := by
  unfold ULONG_SIZE; norm_num

theorem partition_loop_ok (v : Int) (start e1 : Nat) :
    ∀ (fuel : Nat) (arr : List Int) (left right : Nat) (ex : LoopExit),
      partition_loop v fuel arr left right = .ok ex →
      arr.length < ULONG_SIZE → e1 < arr.length → arr[e1]? = some v →
      start ≤ left → left ≤ right + 1 → right < e1 →
      lt_on arr start left v → ge_on arr (right + 1) e1 v →
      ex.arr.length = arr.length ∧ ex.arr.Perm arr ∧
      (∀ k, k < start ∨ e1 ≤ k → ex.arr[k]? = arr[k]?) ∧
      start ≤ ex.left_index ∧ ex.left_index ≤ e1 ∧
      ex.left_index = ex.right_index + 1 ∧
      lt_on ex.arr start ex.left_index v ∧ ge_on ex.arr ex.left_index e1 v := by
  intro fuel
  induction fuel with
  | zero =>
    intro arr left right ex h
    simp [partition_loop] at h
  | succ n ih =>
    intro arr left right ex h hlen he1 hv hsl hlr hre hlt hge
    rw [partition_loop] at h
    rw [ULONG_SIZE_eq] at hlen
    by_cases hc : left ≤ right
    · simp only [hc, if_true] at h
      cases hal : arr[left]? with
      | none => simp [hal] at h
      | some al =>
        simp only [hal] at h
        by_cases h1 : al < v
        · simp only [h1, if_true] at h
          have hmod : (left + 1) % ULONG_SIZE = left + 1 := by
            rw [ULONG_SIZE_eq]; omega
          rw [hmod] at h
          refine ih arr (left + 1) right ex h (by rw [ULONG_SIZE_eq]; exact hlen) he1 hv
            (by omega) (by omega) hre ?_ hge
          intro k x hk1 hk2 hkx
          by_cases hkl : k = left
          · subst hkl; rw [hal] at hkx; cases hkx; exact h1
          · exact hlt k x hk1 (by omega) hkx
        · simp only [h1, if_false] at h
          cases har : arr[right]? with
          | none => simp [har] at h
          | some ar =>
            simp only [har] at h
            by_cases h2 : ar ≥ v
            · simp only [h2, if_true] at h
              by_cases hr0 : right = 0
              · exfalso
                subst hr0
                have hl0 : left = 0 := by omega
                subst hl0
                have hw : (0 + (ULONG_SIZE - 1)) % ULONG_SIZE = 18446744073709551615 := by
                  rw [ULONG_SIZE_eq]
                rw [hw] at h
                cases n with
                | zero => simp [partition_loop] at h
                | succ m =>
                  rw [partition_loop] at h
                  have hnone : arr[18446744073709551615]? = none :=
                    List.getElem?_eq_none (by omega)
                  simp [hal, h1, hnone] at h
              · have hmod : (right + (ULONG_SIZE - 1)) % ULONG_SIZE = right - 1 := by
                  rw [ULONG_SIZE_eq]; omega
                rw [hmod] at h
                refine ih arr left (right - 1) ex h (by rw [ULONG_SIZE_eq]; exact hlen) he1 hv
                  hsl (by omega) (by omega) hlt ?_
                intro k x hk1 hk2 hkx
                by_cases hkr : k = right
                · subst hkr; rw [har] at hkx; cases hkx; exact h2
                · exact hge k x (by omega) hk2 hkx
            · simp only [h2, if_false] at h
              cases hsw : swap arr left right with
              | error f => simp [hsw] at h
              | ok arr1 =>
                simp only [hsw] at h
                obtain ⟨_, _, hl1, hp1, hsl1, hsr1, hfr1⟩ := swap_ok hsw
                have hne : left ≠ right := by
                  intro heq; subst heq; rw [hal] at har; cases har; omega
                have hih := ih arr1 left right ex h (by rw [hl1, ULONG_SIZE_eq]; exact hlen)
                  (by rw [hl1]; exact he1)
                  (by rw [hfr1 e1 (by omega) (by omega)]; exact hv)
                  hsl hlr hre
                  (by
                    intro k x hk1 hk2 hkx
                    rw [hfr1 k (by omega) (by omega)] at hkx
                    exact hlt k x hk1 hk2 hkx)
                  (by
                    intro k x hk1 hk2 hkx
                    rw [hfr1 k (by omega) (by omega)] at hkx
                    exact hge k x hk1 hk2 hkx)
                obtain ⟨c1, c2, c3, c4, c5, c6, c7, c8⟩ := hih
                refine ⟨by rw [c1, hl1], c2.trans hp1, ?_, c4, c5, c6, c7, c8⟩
                intro k hk
                rw [c3 k hk]
                exact hfr1 k (by omega) (by omega)
    · simp only [hc, if_false, Except.ok.injEq] at h
      subst h
      dsimp only
      refine ⟨rfl, List.Perm.refl _, fun _ _ => rfl, hsl, by omega, by omega, hlt, ?_⟩
      intro k x hk1 hk2 hkx
      exact hge k x (by omega) hk2 hkx


theorem partition_ok {arr arr2 : List Int} {start end_ mid : Nat}
    (h : partition arr start end_ = .ok (arr2, mid)) (hlen : arr.length < ULONG_SIZE) :
    start + 2 ≤ end_ ∧ end_ ≤ arr.length ∧
    arr2.length = arr.length ∧ arr2.Perm arr ∧
    (∀ k, k < start ∨ end_ ≤ k → arr2[k]? = arr[k]?) ∧
    start ≤ mid ∧ mid < end_ ∧
    arr2[mid]? = arr[start + (end_ - start) / 2]? ∧
    (∃ v, arr2[mid]? = some v ∧ lt_on arr2 start mid v ∧ ge_on arr2 (mid + 1) end_ v) := by
  unfold partition at h
  by_cases ha1 : end_ > start
  · simp only [ha1, not_true_eq_false, if_false] at h
    by_cases ha2 : end_ - start ≥ 2
    · simp only [ha2, not_true_eq_false, if_false] at h
      cases hpv : arr[(start + (end_ - start) / 2) % ULONG_SIZE]? with
      | none => simp [hpv] at h
      | some v =>
        simp only [hpv] at h
        cases hs1 : swap arr ((start + (end_ - start) / 2) % ULONG_SIZE) (end_ - 1) with
        | error f => simp [hs1] at h
        | ok arr1 =>
          simp only [hs1] at h
          obtain ⟨hpl, hel, hl1, hp1, hsp1, hse1, hfr1⟩ := swap_ok hs1
          have hU := ULONG_SIZE_eq
          have hpi : (start + (end_ - start) / 2) % ULONG_SIZE = start + (end_ - start) / 2 := by
            rw [hU]; rw [hU] at hlen; omega
          rw [hpi] at hpv hsp1 hse1 hfr1
          have hri : (start + (end_ - start - 2)) % ULONG_SIZE = end_ - 2 := by
            rw [hU]; rw [hU] at hlen; omega
          rw [hri] at h
          cases hlp : partition_loop v (2 * (end_ - start) + 1) arr1 start (end_ - 2) with
          | error f => simp [hlp] at h
          | ok ex =>
            simp only [hlp] at h
            cases hs2 : swap ex.arr ex.left_index (end_ - 1) with
            | error f => simp [hs2] at h
            | ok arr3 =>
              simp only [hs2, Except.ok.injEq, Prod.mk.injEq] at h
              obtain ⟨h3, hm⟩ := h
              subst h3
              obtain ⟨_, _, hl3, hp3, hsl3, hse3, hfr3⟩ := swap_ok hs2
              have hv1 : arr1[end_ - 1]? = some v := by rw [hse1, hpv]
              obtain ⟨c1, c2, c3, c4, c5, _, c7, c8⟩ :=
                partition_loop_ok v start (end_ - 1) _ arr1 start (end_ - 2) ex hlp
                  (by rw [hl1]; exact hlen) (by rw [hl1]; exact hel) hv1 (le_refl _)
                  (by omega) (by omega)
                  (by intro k x hk1 hk2; omega)
                  (by intro k x hk1 hk2; omega)
              rw [hm] at c4 c5 c7 c8 hsl3 hse3 hfr3
              have hvex : ex.arr[end_ - 1]? = some v := by
                rw [c3 _ (Or.inr (le_refl _))]; exact hv1
              have hmid : arr3[mid]? = some v := by rw [hsl3, hvex]
              refine ⟨by omega, by omega, by rw [hl3, c1, hl1], (hp3.trans c2).trans hp1,
                ?_, c4, by omega, by rw [hmid, hpv], v, hmid, ?_, ?_⟩
              · intro k hk
                rw [hfr3 k (by omega) (by omega), c3 k (by omega)]
                rw [hfr1 k (by omega) (by omega)]
              · intro k x hk1 hk2 hkx
                rw [hfr3 k (by omega) (by omega)] at hkx
                exact c7 k x hk1 hk2 hkx
              · intro k x hk1 hk2 hkx
                by_cases hke : k = end_ - 1
                · subst hke
                  rw [hse3] at hkx
                  exact c8 mid x (le_refl _) (by omega) hkx
                · rw [hfr3 k (by omega) hke] at hkx
                  exact c8 k x (by omega) (by omega) hkx
    · simp [ha1, ha2] at h
  · simp [ha1] at h


theorem swap_error {arr : List Int} {i j : Nat} {f : Fault} (h : swap arr i j = .error f) :
    f = Fault.outOfBounds := by
  unfold swap at h
  cases hi : arr[i]? with
  | none => simp [hi] at h; exact h.symm
  | some tmp =>
    cases hj : arr[j]? with
    | none => simp [hi, hj] at h; exact h.symm
    | some aj => simp [hi, hj] at h

/-- The scan loop never exhausts a fuel of twice the width of the window plus one
(one less when the next step is known to advance `left_index`). -/
theorem partition_loop_fuel (v : Int) :
    ∀ (fuel : Nat) (arr : List Int) (left right : Nat),
      arr.length < ULONG_SIZE → left ≤ right + 1 → right < arr.length →
      (2 * (right + 1 - left) + 1 ≤ fuel ∨
        (left ≤ right ∧ (∃ x, arr[left]? = some x ∧ x < v) ∧ 2 * (right + 1 - left) ≤ fuel)) →
      partition_loop v fuel arr left right ≠ .error Fault.outOfFuel := by
  intro fuel
  induction fuel with
  | zero =>
    intro arr left right _ hlr _ hf
    omega
  | succ n ih =>
    intro arr left right hlen hlr hra hf
    have hU := ULONG_SIZE_eq
    rw [partition_loop]
    by_cases hc : left ≤ right
    · simp only [hc, if_true]
      cases hal : arr[left]? with
      | none => simp
      | some al =>
        simp only []
        by_cases h1 : al < v
        · simp only [h1, if_true]
          have hmod : (left + 1) % ULONG_SIZE = left + 1 := by
            rw [hU]; rw [hU] at hlen; omega
          rw [hmod]
          exact ih arr (left + 1) right hlen (by omega) hra (Or.inl (by omega))
        · simp only [h1, if_false]
          have hf2 : 2 * (right + 1 - left) + 1 ≤ n + 1 := by
            rcases hf with hf | ⟨_, ⟨x, hx, hxv⟩, _⟩
            · exact hf
            · rw [hal] at hx; cases hx; exact absurd hxv h1
          cases har : arr[right]? with
          | none => simp
          | some ar =>
            simp only []
            by_cases h2 : ar ≥ v
            · simp only [h2, if_true]
              by_cases hr0 : right = 0
              · subst hr0
                have hl0 : left = 0 := by omega
                subst hl0
                have hw : (0 + (ULONG_SIZE - 1)) % ULONG_SIZE = 18446744073709551615 := by
                  rw [hU]
                rw [hw]
                cases n with
                | zero => omega
                | succ m =>
                  rw [partition_loop]
                  have hnone : arr[18446744073709551615]? = none :=
                    List.getElem?_eq_none (by rw [hU] at hlen; omega)
                  simp [hal, h1, hnone]
              · have hmod : (right + (ULONG_SIZE - 1)) % ULONG_SIZE = right - 1 := by
                  rw [hU]; rw [hU] at hlen; omega
                rw [hmod]
                exact ih arr left (right - 1) hlen (by omega) (by omega) (Or.inl (by omega))
            · simp only [h2, if_false]
              cases hsw : swap arr left right with
              | error f =>
                simp only []
                rw [swap_error hsw]
                simp
              | ok arr1 =>
                simp only []
                obtain ⟨_, _, hl1, _, hsl1, _, _⟩ := swap_ok hsw
                refine ih arr1 left right (by rw [hl1]; exact hlen) hlr (by rw [hl1]; exact hra)
                  (Or.inr ⟨hc, ⟨ar, ?_, by omega⟩, by omega⟩)
                rw [hsl1, har]
    · simp [hc]

theorem partition_fuel (arr : List Int) (start end_ : Nat) (hlen : arr.length < ULONG_SIZE) :
    partition arr start end_ ≠ .error Fault.outOfFuel := by
  have hU := ULONG_SIZE_eq
  unfold partition
  by_cases ha1 : end_ > start
  · simp only [ha1, not_true_eq_false, if_false]
    by_cases ha2 : end_ - start ≥ 2
    · simp only [ha2, not_true_eq_false, if_false]
      cases hpv : arr[(start + (end_ - start) / 2) % ULONG_SIZE]? with
      | none => simp
      | some v =>
        simp only []
        cases hs1 : swap arr ((start + (end_ - start) / 2) % ULONG_SIZE) (end_ - 1) with
        | error f => simp only []; rw [swap_error hs1]; simp
        | ok arr1 =>
          simp only []
          obtain ⟨_, hel, hl1, _, _, _, _⟩ := swap_ok hs1
          have hri : (start + (end_ - start - 2)) % ULONG_SIZE = end_ - 2 := by
            rw [hU]; rw [hU] at hlen; omega
          rw [hri]
          have hlp := partition_loop_fuel v (2 * (end_ - start) + 1) arr1 start (end_ - 2)
            (by rw [hl1]; exact hlen) (by omega) (by omega) (Or.inl (by omega))
          cases hl : partition_loop v (2 * (end_ - start) + 1) arr1 start (end_ - 2) with
          | error f =>
            simp only []
            intro hcon
            simp only [Except.error.injEq] at hcon
            rw [hcon] at hl
            exact hlp hl
          | ok ex =>
            simp only []
            cases hs2 : swap ex.arr ex.left_index (end_ - 1) with
            | error f => simp only []; rw [swap_error hs2]; simp
            | ok arr2 => simp
    · simp [ha2]
  · simp [ha1]

theorem compare_le_zero_iff (a b : Int) : compare a b ≤ 0 ↔ a ≤ b := by
  unfold compare
  split
  · simp; omega
  · split
    · simp; omega
    · simp; omega

theorem region_mem_of_perm {a b : List Int} {s e : Nat}
    (hp : b.Perm a) (hfr : ∀ k, k < s ∨ e ≤ k → b[k]? = a[k]?) (hse : s ≤ e) :
    ∀ k x, s ≤ k → k < e → b[k]? = some x → ∃ k1, s ≤ k1 ∧ k1 < e ∧ a[k1]? = some x := by
  have hdec : ∀ l : List Int, l = l.take s ++ ((l.drop s).take (e - s) ++ l.drop e) := by
    intro l
    have h1 : (l.drop s).drop (e - s) = l.drop e := by
      rw [List.drop_drop]; congr 1; omega
    rw [← h1, List.take_append_drop, List.take_append_drop]
  have ht : b.take s = a.take s := by
    apply List.ext_getElem?
    intro n
    rw [List.getElem?_take, List.getElem?_take]
    split
    · exact hfr n (Or.inl (by assumption))
    · rfl
  have hd : b.drop e = a.drop e := by
    apply List.ext_getElem?
    intro n
    rw [List.getElem?_drop, List.getElem?_drop]
    exact hfr _ (Or.inr (by omega))
  have hp1 : (b.take s ++ ((b.drop s).take (e - s) ++ b.drop e)).Perm
      (a.take s ++ ((a.drop s).take (e - s) ++ a.drop e)) := by
    rw [← hdec a, ← hdec b]; exact hp
  rw [ht, hd, List.perm_append_left_iff, List.perm_append_right_iff] at hp1
  intro k x hk1 hk2 hkx
  have hx : x ∈ (b.drop s).take (e - s) := by
    rw [List.mem_iff_getElem?]
    refine ⟨k - s, ?_⟩
    rw [List.getElem?_take, if_pos (by omega), List.getElem?_drop]
    rw [show s + (k - s) = k by omega]
    exact hkx
  rw [hp1.mem_iff, List.mem_iff_getElem?] at hx
  obtain ⟨n, hn⟩ := hx
  rw [List.getElem?_take] at hn
  by_cases hne : n < e - s
  · rw [if_pos hne, List.getElem?_drop] at hn
    exact ⟨s + n, by omega, by omega, hn⟩
  · rw [if_neg hne] at hn; cases hn

theorem qsort_ok {arr arr1 : List Int} {start len : Nat} (h : qsort arr start len = .ok arr1) :
    start + len ≤ arr.length ∧ arr1.length = arr.length ∧ arr1.Perm arr ∧
    (∀ k, k < start ∨ start + len ≤ k → arr1[k]? = arr[k]?) ∧
    sorted_on arr1 start (start + len) := by
  unfold qsort at h
  by_cases hb : start + len ≤ arr.length
  · simp only [hb, if_true, Except.ok.injEq] at h
    have hdec : arr = arr.take start ++ (arr.drop start).take len ++ arr.drop (start + len) := by
      have h1 : (arr.drop start).drop len = arr.drop (start + len) := by
        rw [List.drop_drop]
      rw [← h1, List.append_assoc, List.take_append_drop, List.take_append_drop]
    have hlt : (arr.take start).length = start := by
      rw [List.length_take]; omega
    have hls : (((arr.drop start).take len).insertionSort
        (fun a b => compare a b ≤ 0)).length = len := by
      rw [List.length_insertionSort, List.length_take, List.length_drop]; omega
    haveI : IsTotal Int (fun a b => compare a b ≤ 0) :=
      ⟨fun a b => by simp only [compare_le_zero_iff]; omega⟩
    haveI : IsTrans Int (fun a b => compare a b ≤ 0) :=
      ⟨fun a b c => by simp only [compare_le_zero_iff]; omega⟩
    have hsorted := List.sorted_insertionSort (fun a b : Int => compare a b ≤ 0)
      ((arr.drop start).take len)
    have hperm := List.perm_insertionSort (fun a b : Int => compare a b ≤ 0)
      ((arr.drop start).take len)
    subst h
    refine ⟨hb, ?_, ?_, ?_, ?_⟩
    · simp only [List.length_append, hlt, hls, List.length_drop]; omega
    · conv => rhs; rw [hdec]
      exact (List.Perm.append_left _ hperm).append_right _
    · intro k hk
      rcases hk with hk | hk
      · rw [List.append_assoc, List.getElem?_append_left (by omega), List.getElem?_take,
          if_pos hk]
      · rw [List.getElem?_append_right (by simp only [List.length_append, hlt, hls]; omega)]
        simp only [List.length_append, hlt, hls]
        rw [List.getElem?_drop]
        congr 1; omega
    · intro i j x y hi hij hj hx hy
      have hgi : ∀ n, start ≤ n → n < start + len →
          (arr.take start ++ ((arr.drop start).take len).insertionSort
            (fun a b => compare a b ≤ 0) ++ arr.drop (start + len))[n]? =
          (((arr.drop start).take len).insertionSort (fun a b => compare a b ≤ 0))[n - start]? := by
        intro n hn1 hn2
        rw [List.getElem?_append_left (by simp only [List.length_append, hlt, hls]; omega),
          List.getElem?_append_right (by omega), hlt]
      rw [hgi i hi (by omega)] at hx
      rw [hgi j (by omega) hj] at hy
      obtain ⟨hxl, hxe⟩ := List.getElem?_eq_some.mp hx
      obtain ⟨hyl, hye⟩ := List.getElem?_eq_some.mp hy
      have := (List.pairwise_iff_getElem.mp hsorted) (i - start) (j - start) hxl hyl (by omega)
      rw [hxe, hye] at this
      exact (compare_le_zero_iff x y).mp this
  · simp [hb] at h


/-! ## Worker handles -/

theorem WIFEXITED_W_EXITCODE (code : Int) : WIFEXITED (W_EXITCODE code) = true := by
  unfold WIFEXITED W_EXITCODE
  simp only [beq_iff_eq]
  omega

theorem WEXITSTATUS_W_EXITCODE (code : Int) (h0 : 0 ≤ code) (h1 : code < 256) :
    WEXITSTATUS (W_EXITCODE code) = code := by
  unfold WEXITSTATUS W_EXITCODE
  omega

theorem W_EXITCODE_ne_neg_one (code : Int) : W_EXITCODE code ≠ -1 := by
  unfold W_EXITCODE
  omega

/-! ## The recursive driver -/

theorem child_body_ok {self : List Int → Except Fault Run} {fork : Option Nat}
    {arr : List Int} {c : Run} (h : child_body self fork arr = .ok c) :
    (fork = none ∧ c = ⟨1, arr, []⟩) ∨
    (∃ p r, fork = some p ∧ self arr = .ok r ∧ c = ⟨child_exit_code r.ret, r.arr, r.log⟩) := by
  unfold child_body at h
  cases fork with
  | none =>
    simp only [Except.ok.injEq] at h
    exact Or.inl ⟨rfl, h.symm⟩
  | some p =>
    cases hs : self arr with
    | error f => simp [hs] at h
    | ok r =>
      simp only [hs, Except.ok.injEq] at h
      exact Or.inr ⟨p, r, rfl, rfl, h.symm⟩

theorem exit_status_zero_iff (ok : Int) :
    WEXITSTATUS (W_EXITCODE (child_exit_code ok)) = 0 ↔ ok ≠ 0 := by
  unfold child_exit_code
  by_cases h : ok = 0
  · simp [h, WEXITSTATUS, W_EXITCODE]
  · simp [h, WEXITSTATUS, W_EXITCODE]

theorem worker_success_iff (fate : Fate) (code : Int) :
    worker_ok fate code ↔
    (fate.fork.isSome = true ∧ fate.wait_fails = false ∧ fate.abnormal = none ∧
      WEXITSTATUS (W_EXITCODE code) = 0) := by
  unfold worker_ok
  obtain ⟨fork, wf, ab⟩ := fate
  cases fork with
  | none => simp [quicksort_spawn, child_wait]
  | some p =>
    cases wf with
    | true => simp [quicksort_spawn, child_wait, waitpid_answer]
    | false =>
      cases ab with
      | some s =>
        obtain ⟨s, hs⟩ := s
        simp [quicksort_spawn, child_wait, waitpid_answer, child_succeeded, hs]
      | none =>
        have h1 := WIFEXITED_W_EXITCODE code
        have h2 := W_EXITCODE_ne_neg_one code
        by_cases h3 : WEXITSTATUS (W_EXITCODE code) = 0
        · simp [quicksort_spawn, child_wait, waitpid_answer, child_succeeded, h1, h2, h3]
        · simp [quicksort_spawn, child_wait, waitpid_answer, child_succeeded, h1, h2, h3]


/-- The sequence of system calls of one parallel-state call of `quicksort` run by
process `proc`, given the two workers' runs. -/
theorem quicksort_parallel_inv {O : List Bool → Fate} {fuel : Nat} {proc : List Bool}
    {arr : List Int} {start end_ thr : Nat} {r : Run}
    (h : quicksort O (fuel + 1) proc arr start end_ thr = .ok r)
    (h2 : ¬ end_ - start < 2) (ht : ¬ end_ - start ≤ thr) :
    ∃ arr1 mid cl cr,
      partition arr start end_ = .ok (arr1, mid) ∧
      child_body (fun a => quicksort O fuel (proc ++ [false]) a start mid thr)
        (O (proc ++ [false])).fork arr1 = .ok cl ∧
      child_body (fun a => quicksort O fuel (proc ++ [true]) a ((mid + 1) % ULONG_SIZE) end_ thr)
        (O (proc ++ [true])).fork cl.arr = .ok cr ∧
      r.arr = cr.arr ∧
      (r.ret ≠ 0 ↔ (worker_ok (O (proc ++ [false])) cl.ret ∧ worker_ok (O (proc ++ [true])) cr.ret)) ∧
      (r.ret = 0 ∨ r.ret = 1) ∧
      r.log = [Event.fork proc start mid (O (proc ++ [false])).fork.isNone,
               Event.fork proc ((mid + 1) % ULONG_SIZE) end_ (O (proc ++ [true])).fork.isNone]
        ++ cl.log ++ cr.log
        ++ (child_wait (waitpid_answer (O (proc ++ [false])) cl.ret)
              (quicksort_spawn (O (proc ++ [false])).fork)).calls.map (Event.waitpid proc)
        ++ (child_wait (waitpid_answer (O (proc ++ [true])) cr.ret)
              (quicksort_spawn (O (proc ++ [true])).fork)).calls.map (Event.waitpid proc) := by
  rw [quicksort] at h
  by_cases ha : end_ ≥ start
  · simp only [ha, not_true_eq_false, if_false, h2, ht] at h
    cases hp : partition arr start end_ with
    | error f => simp [hp] at h
    | ok pr =>
      obtain ⟨arr1, mid⟩ := pr
      simp only [hp] at h
      cases hl : child_body (fun a => quicksort O fuel (proc ++ [false]) a start mid thr)
          (O (proc ++ [false])).fork arr1 with
      | error f => simp [hl] at h
      | ok cl =>
        simp only [hl] at h
        cases hr : child_body
            (fun a => quicksort O fuel (proc ++ [true]) a ((mid + 1) % ULONG_SIZE) end_ thr)
            (O (proc ++ [true])).fork cl.arr with
        | error f => simp [hr] at h
        | ok cr =>
          simp only [hr, Except.ok.injEq] at h
          subst h
          refine ⟨arr1, mid, cl, cr, rfl, hl, hr, rfl, ?_, ?_, rfl⟩
          · unfold worker_ok
            dsimp only
            by_cases hwl : (child_wait (waitpid_answer (O (proc ++ [false])) cl.ret)
                (quicksort_spawn (O (proc ++ [false])).fork)).ret ≠ 0 ∧
                child_succeeded (child_wait (waitpid_answer (O (proc ++ [false])) cl.ret)
                (quicksort_spawn (O (proc ++ [false])).fork)).child ≠ 0
            · by_cases hwr : (child_wait (waitpid_answer (O (proc ++ [true])) cr.ret)
                  (quicksort_spawn (O (proc ++ [true])).fork)).ret ≠ 0 ∧
                  child_succeeded (child_wait (waitpid_answer (O (proc ++ [true])) cr.ret)
                  (quicksort_spawn (O (proc ++ [true])).fork)).child ≠ 0
              · simp [hwl, hwr]
              · simp [hwl, hwr]
            · simp [hwl]
          · dsimp only
            split_ifs <;> simp
  · simp [ha] at h


theorem child_post {self : List Int → Except Fault Run} (fate : Fate) {arr : List Int}
    (s e : Nat) {c : Run}
    (hself : ∀ r, self arr = .ok r → sort_post arr s e r)
    (h : child_body self fate.fork arr = .ok c) :
    c.arr.length = arr.length ∧ c.arr.Perm arr ∧
    (∀ k, k < s ∨ e ≤ k → c.arr[k]? = arr[k]?) ∧
    (worker_ok fate c.ret → sorted_on c.arr s e) := by
  rcases child_body_ok h with ⟨hf, hc⟩ | ⟨p, r, hf, hr, hc⟩
  · subst hc
    refine ⟨rfl, List.Perm.refl _, fun _ _ => rfl, ?_⟩
    intro hw
    rw [worker_success_iff, hf] at hw
    simp at hw
  · subst hc
    obtain ⟨h1, h2, h3, h4⟩ := hself r hr
    refine ⟨h1, h2, h3, ?_⟩
    intro hw
    rw [worker_success_iff] at hw
    exact h4 ((exit_status_zero_iff r.ret).mp hw.2.2.2)

theorem quicksort_post (O : List Bool → Fate) :
    ∀ (fuel : Nat) (proc : List Bool) (arr : List Int) (start end_ thr : Nat) (r : Run),
      quicksort O fuel proc arr start end_ thr = .ok r → arr.length < ULONG_SIZE →
      sort_post arr start end_ r := by
  intro fuel
  induction fuel with
  | zero =>
    intro proc arr start end_ thr r h
    simp [quicksort] at h
  | succ n ih =>
    intro proc arr start end_ thr r h hlen
    by_cases h2 : end_ - start < 2
    · rw [quicksort] at h
      by_cases ha : end_ ≥ start
      · simp only [ha, not_true_eq_false, if_false, h2, if_true, Except.ok.injEq] at h
        subst h
        refine ⟨rfl, List.Perm.refl _, fun _ _ => rfl, ?_⟩
        intro _ i j x y hi hij hj
        omega
      · simp [ha] at h
    · by_cases ht : end_ - start ≤ thr
      · rw [quicksort] at h
        by_cases ha : end_ ≥ start
        · simp only [ha, not_true_eq_false, if_false, h2, ht, if_true] at h
          cases hq : qsort arr start (end_ - start) with
          | error f => simp [hq] at h
          | ok arr1 =>
            simp only [hq, Except.ok.injEq] at h
            subst h
            obtain ⟨q1, q2, q3, q4, q5⟩ := qsort_ok hq
            have he : start + (end_ - start) = end_ := by omega
            rw [he] at q4 q5
            exact ⟨q2, q3, q4, fun _ => q5⟩
        · simp [ha] at h
      · obtain ⟨arr1, mid, cl, cr, hp, hl, hr, hra, hret, _, _⟩ :=
          quicksort_parallel_inv h h2 ht
        obtain ⟨p1, p2, p3, p4, p5, p6, p7, _, v, p8, p9, p10⟩ := partition_ok hp hlen
        have hU := ULONG_SIZE_eq
        have hmid : (mid + 1) % ULONG_SIZE = mid + 1 := by
          rw [hU]; rw [hU] at hlen; omega
        rw [hmid] at hr
        obtain ⟨l1, l2, l3, l4⟩ := child_post (O (proc ++ [false])) start mid
          (fun r hr => ih _ _ _ _ _ r hr (by rw [p3]; exact hlen)) hl
        obtain ⟨r1, r2, r3, r4⟩ := child_post (O (proc ++ [true])) (mid + 1) end_
          (fun r hr => ih _ _ _ _ _ r hr (by rw [l1, p3]; exact hlen)) hr
        refine ⟨by rw [hra, r1, l1, p3], by rw [hra]; exact (r2.trans l2).trans p4, ?_, ?_⟩
        · intro k hk
          rw [hra, r3 k (by omega), l3 k (by omega), p5 k hk]
        · intro hok
          rw [hret] at hok
          have hsl := l4 hok.1
          have hsr := r4 hok.2
          rw [hra]
          -- elements left of `mid` are below the pivot, elements right of it are not
          have hlt : lt_on cr.arr start mid v := by
            intro k x hk1 hk2 hkx
            rw [r3 k (by omega)] at hkx
            obtain ⟨k1, hk3, hk4, hk5⟩ :=
              region_mem_of_perm l2 l3 p6 k x hk1 hk2 hkx
            exact p9 k1 x hk3 hk4 hk5
          have hge : ge_on cr.arr (mid + 1) end_ v := by
            intro k x hk1 hk2 hkx
            obtain ⟨k1, hk3, hk4, hk5⟩ :=
              region_mem_of_perm r2 r3 (by omega) k x hk1 hk2 hkx
            rw [l3 k1 (by omega)] at hk5
            exact p10 k1 x hk3 hk4 hk5
          have hpv : cr.arr[mid]? = some v := by
            rw [r3 mid (by omega), l3 mid (by omega)]; exact p8
          intro i j x y hi hij hj hx hy
          by_cases hjm : j < mid
          · rw [r3 i (by omega)] at hx
            rw [r3 j (by omega)] at hy
            exact hsl i j x y hi hij hjm hx hy
          · by_cases him : mid < i
            · exact hsr i j x y (by omega) hij hj hx hy
            · -- i ≤ mid ≤ j
              have hxv : x ≤ v := by
                by_cases hie : i = mid
                · subst hie; rw [hpv] at hx; cases hx; exact le_refl _
                · exact le_of_lt (hlt i x hi (by omega) hx)
              have hvy : v ≤ y := by
                by_cases hje : j = mid
                · subst hje; rw [hpv] at hy; cases hy; exact le_refl _
                · exact hge j y (by omega) hj hy
              exact le_trans hxv hvy

theorem child_body_error {self : List Int → Except Fault Run} {fork : Option Nat}
    {arr : List Int} {f : Fault} (h : child_body self fork arr = .error f) :
    self arr = .error f := by
  unfold child_body at h
  cases fork with
  | none => simp at h
  | some p =>
    cases hs : self arr with
    | error g => simp [hs] at h; rw [h]
    | ok r => simp [hs] at h

theorem qsort_error {arr : List Int} {start len : Nat} {f : Fault}
    (h : qsort arr start len = .error f) : f = Fault.outOfBounds := by
  unfold qsort at h
  split at h
  · simp at h
  · simp at h; exact h.symm

/-- A fuel above the length of the region is never exhausted by `quicksort`. -/
theorem quicksort_fuel (O : List Bool → Fate) :
    ∀ (fuel : Nat) (proc : List Bool) (arr : List Int) (start end_ thr : Nat),
      arr.length < ULONG_SIZE → end_ - start < fuel →
      quicksort O fuel proc arr start end_ thr ≠ .error Fault.outOfFuel := by
  intro fuel
  induction fuel with
  | zero =>
    intro proc arr start end_ thr _ hf
    omega
  | succ n ih =>
    intro proc arr start end_ thr hlen hf
    have hU := ULONG_SIZE_eq
    rw [quicksort]
    by_cases ha : end_ ≥ start
    · simp only [ha, not_true_eq_false, if_false]
      by_cases h2 : end_ - start < 2
      · simp [h2]
      · simp only [h2, if_false]
        by_cases ht : end_ - start ≤ thr
        · simp only [ht, if_true]
          cases hq : qsort arr start (end_ - start) with
          | error f => simp only []; rw [qsort_error hq]; simp
          | ok a => simp
        · simp only [ht, if_false]
          cases hp : partition arr start end_ with
          | error f =>
            simp only []
            intro hcon
            simp only [Except.error.injEq] at hcon
            rw [hcon] at hp
            exact partition_fuel arr start end_ hlen hp
          | ok pr =>
            obtain ⟨arr1, mid⟩ := pr
            simp only []
            obtain ⟨_, _, p3, _, _, p6, p7, _⟩ := partition_ok hp hlen
            have hmid : (mid + 1) % ULONG_SIZE = mid + 1 := by
              rw [hU]; rw [hU] at hlen; omega
            rw [hmid]
            cases hl : child_body (fun a => quicksort O n (proc ++ [false]) a start mid thr)
                (O (proc ++ [false])).fork arr1 with
            | error f =>
              simp only []
              intro hcon
              simp only [Except.error.injEq] at hcon
              rw [hcon] at hl
              exact ih _ arr1 start mid thr (by rw [p3]; exact hlen) (by omega)
                (child_body_error hl)
            | ok cl =>
              simp only []
              obtain ⟨l1, _, _, _⟩ := child_post (O (proc ++ [false])) start mid
                (fun r hr => quicksort_post O _ _ _ _ _ _ r hr (by rw [p3]; exact hlen)) hl
              cases hr : child_body
                  (fun a => quicksort O n (proc ++ [true]) a (mid + 1) end_ thr)
                  (O (proc ++ [true])).fork cl.arr with
              | error f =>
                simp only []
                intro hcon
                simp only [Except.error.injEq] at hcon
                rw [hcon] at hr
                exact ih _ cl.arr (mid + 1) end_ thr (by rw [l1, p3]; exact hlen) (by omega)
                  (child_body_error hr)
              | ok cr => simp
    · simp [ha]

/-- A region of fewer than two elements: `quicksort` returns 1 at once. -/
theorem quicksort_lt_two (O : List Bool → Fate) (fuel : Nat) (proc : List Bool)
    (arr : List Int) (start end_ par_threshold : Nat)
    (hse : start ≤ end_) (h2 : end_ - start < 2) :
    quicksort O (fuel + 1) proc arr start end_ par_threshold = .ok ⟨1, arr, []⟩ := by
  rw [quicksort]
  simp [hse, h2]

theorem child_succeeded_ne_zero {c : child_state_t} (h : child_succeeded c ≠ 0) :
    c.fork_failed = 0 ∧ c.waited ≠ 0 ∧ c.wait_status ≠ -1 ∧
    WIFEXITED c.wait_status = true ∧ WEXITSTATUS c.wait_status = 0 := by
  unfold child_succeeded at h
  by_cases h1 : c.fork_failed = 0
  · by_cases h2 : c.waited = 0
    · simp [h1, h2] at h
    · by_cases h3 : c.wait_status = -1
      · simp [h1, h2, h3] at h
      · by_cases h4 : WIFEXITED c.wait_status = true
        · by_cases h5 : WEXITSTATUS c.wait_status = 0
          · exact ⟨h1, h2, h3, h4, h5⟩
          · simp [h1, h2, h3, h4, h5] at h
        · simp [h1, h2, h3, h4] at h
  · simp [h1] at h

/-- An evaluation of the success test on a handle left by an earlier evaluation
returns the same value and leaves the handle as it is. -/
theorem success_test_stable (w1 w2 : Int → Option Int) (c : child_state_t) :
    success_test w2 (success_test w1 c).2 = success_test w1 c := by
  unfold success_test
  by_cases h1 : c.fork_failed = 0
  · by_cases h2 : c.waited = 0
    · cases h3 : w1 c.pid with
      | none => simp [child_wait, h1, h2, h3, child_succeeded]
      | some s => simp [child_wait, h1, h2, h3]
    · simp [child_wait, h1, h2]
  · simp [child_wait, h1]

theorem partition_loop_error (v : Int) :
    ∀ (fuel : Nat) (arr : List Int) (left right : Nat) (f : Fault),
      partition_loop v fuel arr left right = .error f →
      f = Fault.outOfBounds ∨ f = Fault.outOfFuel := by
  intro fuel
  induction fuel with
  | zero =>
    intro arr left right f h
    simp [partition_loop] at h
    exact Or.inr h.symm
  | succ n ih =>
    intro arr left right f h
    rw [partition_loop] at h
    by_cases hc : left ≤ right
    · simp only [hc, if_true] at h
      cases hal : arr[left]? with
      | none => simp [hal] at h; exact Or.inl h.symm
      | some al =>
        simp only [hal] at h
        by_cases h1 : al < v
        · simp only [h1, if_true] at h
          exact ih _ _ _ _ h
        · simp only [h1, if_false] at h
          cases har : arr[right]? with
          | none => simp [har] at h; exact Or.inl h.symm
          | some ar =>
            simp only [har] at h
            by_cases h2 : ar ≥ v
            · simp only [h2, if_true] at h
              exact ih _ _ _ _ h
            · simp only [h2, if_false] at h
              cases hsw : swap arr left right with
              | error g =>
                simp only [hsw, Except.error.injEq] at h
                rw [← h]
                exact Or.inl (swap_error hsw)
              | ok arr1 =>
                simp only [hsw] at h
                exact ih _ _ _ _ h
    · simp [hc] at h

/-- The two assertions of `partition` hold on every region of at least two elements. -/
theorem partition_no_assert (arr : List Int) (start end_ : Nat) (h2 : 2 ≤ end_ - start) :
    partition arr start end_ ≠ .error Fault.assertion := by
  have ha1 : end_ > start := by omega
  have ha2 : end_ - start ≥ 2 := h2
  unfold partition
  simp only [ha1, not_true_eq_false, if_false, ha2]
  cases hpv : arr[(start + (end_ - start) / 2) % ULONG_SIZE]? with
  | none => simp
  | some v =>
    simp only []
    cases hs1 : swap arr ((start + (end_ - start) / 2) % ULONG_SIZE) (end_ - 1) with
    | error f => simp only []; rw [swap_error hs1]; simp
    | ok arr1 =>
      simp only []
      cases hl : partition_loop v (2 * (end_ - start) + 1) arr1 start
          ((start + (end_ - start - 2)) % ULONG_SIZE) with
      | error f =>
        simp only []
        rcases partition_loop_error v _ _ _ _ f hl with hf | hf <;> rw [hf] <;> simp
      | ok ex =>
        simp only []
        cases hs2 : swap ex.arr ex.left_index (end_ - 1) with
        | error f => simp only []; rw [swap_error hs2]; simp
        | ok arr2 => simp

/-- No assertion fails in a run of `quicksort` started on a region with
`start ≤ end`. -/
theorem quicksort_no_assert (O : List Bool → Fate) :
    ∀ (fuel : Nat) (proc : List Bool) (arr : List Int) (start end_ thr : Nat),
      arr.length < ULONG_SIZE → start ≤ end_ →
      quicksort O fuel proc arr start end_ thr ≠ .error Fault.assertion := by
  intro fuel
  induction fuel with
  | zero =>
    intro proc arr start end_ thr _ _
    simp [quicksort]
  | succ n ih =>
    intro proc arr start end_ thr hlen hse
    have hU := ULONG_SIZE_eq
    rw [quicksort]
    have ha : end_ ≥ start := hse
    simp only [ha, not_true_eq_false, if_false]
    by_cases h2 : end_ - start < 2
    · simp [h2]
    · simp only [h2, if_false]
      by_cases ht : end_ - start ≤ thr
      · simp only [ht, if_true]
        cases hq : qsort arr start (end_ - start) with
        | error f => simp only []; rw [qsort_error hq]; simp
        | ok a => simp
      · simp only [ht, if_false]
        cases hp : partition arr start end_ with
        | error f =>
          simp only []
          intro hcon
          simp only [Except.error.injEq] at hcon
          rw [hcon] at hp
          exact partition_no_assert arr start end_ (by omega) hp
        | ok pr =>
          obtain ⟨arr1, mid⟩ := pr
          simp only []
          obtain ⟨_, _, p3, _, _, p6, p7, _⟩ := partition_ok hp hlen
          have hmid : (mid + 1) % ULONG_SIZE = mid + 1 := by
            rw [hU]; rw [hU] at hlen; omega
          rw [hmid]
          cases hl : child_body (fun a => quicksort O n (proc ++ [false]) a start mid thr)
              (O (proc ++ [false])).fork arr1 with
          | error f =>
            simp only []
            intro hcon
            simp only [Except.error.injEq] at hcon
            rw [hcon] at hl
            exact ih _ arr1 start mid thr (by rw [p3]; exact hlen) p6 (child_body_error hl)
          | ok cl =>
            simp only []
            obtain ⟨l1, _, _, _⟩ := child_post (O (proc ++ [false])) start mid
              (fun r hr => quicksort_post O _ _ _ _ _ _ r hr (by rw [p3]; exact hlen)) hl
            cases hr : child_body
                (fun a => quicksort O n (proc ++ [true]) a (mid + 1) end_ thr)
                (O (proc ++ [true])).fork cl.arr with
            | error f =>
              simp only []
              intro hcon
              simp only [Except.error.injEq] at hcon
              rw [hcon] at hr
              exact ih _ cl.arr (mid + 1) end_ thr (by rw [l1, p3]; exact hlen) (by omega)
                (child_body_error hr)
            | ok cr => simp

theorem child_wait_calls (fate : Fate) (code : Int) (proc : List Bool) :
    (child_wait (waitpid_answer fate code) (quicksort_spawn fate.fork)).calls.map
      (Event.waitpid proc) = wait_events proc fate.fork := by
  obtain ⟨fork, wf, ab⟩ := fate
  cases fork with
  | none => simp [quicksort_spawn, child_wait, wait_events]
  | some p =>
    cases wf with
    | true => simp [quicksort_spawn, child_wait, waitpid_answer, wait_events]
    | false =>
      cases ab with
      | some s => simp [quicksort_spawn, child_wait, waitpid_answer, wait_events]
      | none => simp [quicksort_spawn, child_wait, waitpid_answer, wait_events]

/-- Every system call in the log of a call run by `proc` on `[start, end)` was made by
`proc` or by a process below it, and every spawned region lies inside `[start, end)`. -/
theorem quicksort_log (O : List Bool → Fate) :
    ∀ (fuel : Nat) (proc : List Bool) (arr : List Int) (start end_ thr : Nat) (r : Run),
      quicksort O fuel proc arr start end_ thr = .ok r → arr.length < ULONG_SIZE →
      start ≤ end_ →
      ∀ ev ∈ r.log, proc <+: ev.proc ∧
        ∀ p s e f, ev = Event.fork p s e f → start ≤ s ∧ s ≤ e ∧ e ≤ end_ := by
  intro fuel
  induction fuel with
  | zero =>
    intro proc arr start end_ thr r h
    simp [quicksort] at h
  | succ n ih =>
    intro proc arr start end_ thr r h hlen hse ev hev
    have hU := ULONG_SIZE_eq
    by_cases h2 : end_ - start < 2
    · rw [quicksort_lt_two O n proc arr start end_ thr hse h2] at h
      simp only [Except.ok.injEq] at h
      subst h
      simp at hev
    · by_cases ht : end_ - start ≤ thr
      · rw [quicksort] at h
        have ha : end_ ≥ start := hse
        simp only [ha, not_true_eq_false, if_false, h2, ht, if_true] at h
        cases hq : qsort arr start (end_ - start) with
        | error f => simp [hq] at h
        | ok arr1 =>
          simp only [hq, Except.ok.injEq] at h
          subst h
          simp at hev
      · obtain ⟨arr1, mid, cl, cr, hp, hl, hr, _, _, _, hlog⟩ :=
          quicksort_parallel_inv h h2 ht
        obtain ⟨_, _, p3, _, _, p6, p7, _⟩ := partition_ok hp hlen
        have hmid : (mid + 1) % ULONG_SIZE = mid + 1 := by
          rw [hU]; rw [hU] at hlen; omega
        rw [hmid] at hr hlog
        obtain ⟨l1, _, _, _⟩ := child_post (O (proc ++ [false])) start mid
          (fun r hr => quicksort_post O _ _ _ _ _ _ r hr (by rw [p3]; exact hlen)) hl
        have hchild : ∀ (b : Bool) (a : List Int) (s e : Nat) (c : Run),
            a.length < ULONG_SIZE → s ≤ e → start ≤ s → e ≤ end_ →
            child_body (fun a => quicksort O n (proc ++ [b]) a s e thr) (O (proc ++ [b])).fork a
              = .ok c →
            ∀ ev ∈ c.log, proc <+: ev.proc ∧
              ∀ p s1 e1 f, ev = Event.fork p s1 e1 f → start ≤ s1 ∧ s1 ≤ e1 ∧ e1 ≤ end_ := by
          intro b a s e c ha hs1 hs2 hs3 hc ev hev
          rcases child_body_ok hc with ⟨_, hc2⟩ | ⟨_, r1, _, hr1, hc2⟩
          · subst hc2; simp at hev
          · subst hc2
            obtain ⟨q1, q2⟩ := ih _ _ _ _ _ r1 hr1 ha hs1 ev hev
            refine ⟨(List.prefix_append proc [b]).trans q1, ?_⟩
            intro p s1 e1 f hf
            obtain ⟨t1, t2, t3⟩ := q2 p s1 e1 f hf
            exact ⟨by omega, t2, by omega⟩
        rw [hlog, child_wait_calls, child_wait_calls] at hev
        simp only [List.mem_append, List.mem_cons, List.not_mem_nil, or_false] at hev
        rcases hev with (((hev | hev) | hev) | hev) | hev
        · rcases hev with hev | hev
          · subst hev
            refine ⟨List.prefix_refl _, ?_⟩
            intro p s e f hf
            simp only [Event.fork.injEq] at hf
            obtain ⟨_, rfl, rfl, _⟩ := hf
            omega
          · subst hev
            refine ⟨List.prefix_refl _, ?_⟩
            intro p s e f hf
            simp only [Event.fork.injEq] at hf
            obtain ⟨_, rfl, rfl, _⟩ := hf
            omega
        · exact hchild false arr1 start mid cl (by rw [p3]; exact hlen) p6 (le_refl _)
            (by omega) hl ev hev
        · exact hchild true cl.arr (mid + 1) end_ cr (by rw [l1, p3]; exact hlen) (by omega)
            (by omega) (le_refl _) hr ev hev
        · unfold wait_events at hev
          cases hf : (O (proc ++ [false])).fork with
          | none => rw [hf] at hev; simp at hev
          | some q =>
            rw [hf] at hev
            simp only [List.mem_singleton] at hev
            subst hev
            exact ⟨List.prefix_refl _, fun p s e f hf => by cases hf⟩
        · unfold wait_events at hev
          cases hf : (O (proc ++ [true])).fork with
          | none => rw [hf] at hev; simp at hev
          | some q =>
            rw [hf] at hev
            simp only [List.mem_singleton] at hev
            subst hev
            exact ⟨List.prefix_refl _, fun p s e f hf => by cases hf⟩

/-- A successful sort of a buffer that is already in non-decreasing order returns the
buffer as it was. -/
theorem sorted_input_unchanged (O : List Bool → Fate) (fuel : Nat) (proc : List Bool)
    (arr : List Int) (thr : Nat) (r : Run) (hN : arr.length < ULONG_SIZE)
    (hs : List.Sorted (· ≤ ·) arr)
    (hrun : quicksort O fuel proc arr 0 arr.length thr = .ok r) (hok : r.ret ≠ 0) :
    r.arr = arr := by
  obtain ⟨h1, h2, _, h4⟩ := quicksort_post O fuel proc arr 0 arr.length thr r hrun hN
  have hsr : List.Sorted (· ≤ ·) r.arr := by
    unfold List.Sorted
    rw [List.pairwise_iff_getElem]
    intro i j hi hj hij
    exact h4 hok i j _ _ (Nat.zero_le _) hij (by omega)
      (List.getElem?_eq_getElem hi) (List.getElem?_eq_getElem hj)
  exact List.eq_of_perm_of_sorted h2 hsr hs

/-- The scan loop stays inside the buffer as long as `right_index` cannot reach 0 with
`left_index = 0`: the region does not start at index 0, or `left_index` has already
advanced, or the window still holds an element smaller than the pivot. -/
theorem partition_loop_in_bounds (v : Int) (start : Nat) :
    ∀ (fuel : Nat) (arr : List Int) (left right : Nat),
      arr.length < ULONG_SIZE → start ≤ left → left ≤ right + 1 → right < arr.length →
      (0 < start ∨ start < left ∨ ∃ k x, left ≤ k ∧ k ≤ right ∧ arr[k]? = some x ∧ x < v) →
      partition_loop v fuel arr left right ≠ .error Fault.outOfBounds := by
  intro fuel
  induction fuel with
  | zero =>
    intro arr left right _ _ _ _ _
    simp [partition_loop]
  | succ n ih =>
    intro arr left right hlen hsl hlr hra hcond
    have hU := ULONG_SIZE_eq
    rw [partition_loop]
    by_cases hc : left ≤ right
    · simp only [hc, if_true]
      have hal : arr[left]? = some arr[left] := List.getElem?_eq_getElem (by omega)
      have har : arr[right]? = some arr[right] := List.getElem?_eq_getElem hra
      rw [hal]
      simp only []
      by_cases h1 : arr[left] < v
      · simp only [h1, if_true]
        have hmod : (left + 1) % ULONG_SIZE = left + 1 := by
          rw [hU]; rw [hU] at hlen; omega
        rw [hmod]
        exact ih arr (left + 1) right hlen (by omega) (by omega) hra (Or.inr (Or.inl (by omega)))
      · simp only [h1, if_false]
        rw [har]
        simp only []
        by_cases h2 : arr[right] ≥ v
        · simp only [h2, if_true]
          have hr0 : right ≠ 0 := by
            intro h0
            rcases hcond with h | h | ⟨k, x, hk1, hk2, hkx, hxv⟩
            · omega
            · omega
            · have hk : k = right := by omega
              subst hk
              rw [har] at hkx
              cases hkx
              omega
          have hmod : (right + (ULONG_SIZE - 1)) % ULONG_SIZE = right - 1 := by
            rw [hU]; rw [hU] at hlen; omega
          rw [hmod]
          refine ih arr left (right - 1) hlen hsl (by omega) (by omega) ?_
          rcases hcond with h | h | ⟨k, x, hk1, hk2, hkx, hxv⟩
          · exact Or.inl h
          · exact Or.inr (Or.inl h)
          · refine Or.inr (Or.inr ⟨k, x, hk1, ?_, hkx, hxv⟩)
            have hk : k ≠ right := by
              intro hk
              subst hk
              rw [har] at hkx
              cases hkx
              omega
            omega
        · simp only [h2, if_false]
          cases hsw : swap arr left right with
          | error f =>
            exfalso
            unfold swap at hsw
            simp [hal, har] at hsw
          | ok arr1 =>
            simp only []
            obtain ⟨_, _, hl1, _, hsl1, _, _⟩ := swap_ok hsw
            refine ih arr1 left right (by rw [hl1]; exact hlen) hsl hlr (by rw [hl1]; exact hra)
              (Or.inr (Or.inr ⟨left, arr[right], le_refl _, hc, ?_, by omega⟩))
            rw [hsl1, har]
    · simp [hc]

/-- The scan loop is left, with a result, under the same conditions. -/
theorem partition_loop_returns (v : Int) (start : Nat) (arr : List Int) (left right : Nat)
    (hlen : arr.length < ULONG_SIZE) (hsl : start ≤ left) (hlr : left ≤ right + 1)
    (hra : right < arr.length)
    (hcond : 0 < start ∨ start < left ∨
      ∃ k x, left ≤ k ∧ k ≤ right ∧ arr[k]? = some x ∧ x < v)
    (fuel : Nat) (hf : 2 * (right + 1 - left) + 1 ≤ fuel) :
    ∃ ex, partition_loop v fuel arr left right = .ok ex := by
  cases h : partition_loop v fuel arr left right with
  | ok ex => exact ⟨ex, rfl⟩
  | error f =>
    exfalso
    rcases partition_loop_error v fuel arr left right f h with hf1 | hf1
    · rw [hf1] at h
      exact partition_loop_in_bounds v start fuel arr left right hlen hsl hlr hra hcond h
    · rw [hf1] at h
      exact partition_loop_fuel v fuel arr left right hlen hlr hra (Or.inl hf) h

/-- For a region of at least two elements inside the buffer that does not start at
index 0, or that holds an element smaller than its middle element, `partition`
returns. -/
theorem partition_returns (arr : List Int) (start end_ : Nat)
    (hlen : arr.length < ULONG_SIZE) (h2 : start + 2 ≤ end_) (hb : end_ ≤ arr.length)
    (hcond : 0 < start ∨ ∃ k x y, start ≤ k ∧ k < end_ ∧ arr[k]? = some x ∧
      arr[start + (end_ - start) / 2]? = some y ∧ x < y) :
    ∃ arr1 mid, partition arr start end_ = .ok (arr1, mid) := by
  have hU := ULONG_SIZE_eq
  have ha1 : end_ > start := by omega
  have ha2 : end_ - start ≥ 2 := by omega
  have hpi : (start + (end_ - start) / 2) % ULONG_SIZE = start + (end_ - start) / 2 := by
    rw [hU]; rw [hU] at hlen; omega
  have hri : (start + (end_ - start - 2)) % ULONG_SIZE = end_ - 2 := by
    rw [hU]; rw [hU] at hlen; omega
  have hpl : start + (end_ - start) / 2 < arr.length := by omega
  have hpv : arr[start + (end_ - start) / 2]? = some arr[start + (end_ - start) / 2] :=
    List.getElem?_eq_getElem hpl
  have hev : arr[end_ - 1]? = some arr[end_ - 1] := List.getElem?_eq_getElem (by omega)
  unfold partition
  simp only [ha1, not_true_eq_false, if_false, ha2, hpi, hri, hpv]
  cases hs1 : swap arr (start + (end_ - start) / 2) (end_ - 1) with
  | error f =>
    exfalso
    unfold swap at hs1
    simp [hpv, hev] at hs1
  | ok arr1 =>
    simp only []
    obtain ⟨_, _, hl1, _, hsp1, hse1, hfr1⟩ := swap_ok hs1
    have hcond1 : 0 < start ∨ start < start ∨ ∃ k x, start ≤ k ∧ k ≤ end_ - 2 ∧
        arr1[k]? = some x ∧ x < arr[start + (end_ - start) / 2] := by
      rcases hcond with h | ⟨k, x, y, hk1, hk2, hkx, hky, hxy⟩
      · exact Or.inl h
      · rw [hpv] at hky
        cases hky
        have hkp : k ≠ start + (end_ - start) / 2 := by
          intro hk
          subst hk
          rw [hpv] at hkx
          cases hkx
          omega
        refine Or.inr (Or.inr ?_)
        by_cases hke : k = end_ - 1
        · subst hke
          refine ⟨start + (end_ - start) / 2, x, by omega, by omega, ?_, hxy⟩
          rw [hsp1, hkx]
        · refine ⟨k, x, hk1, by omega, ?_, hxy⟩
          rw [hfr1 k hkp hke, hkx]
    obtain ⟨ex, hex⟩ := partition_loop_returns arr[start + (end_ - start) / 2] start arr1
      start (end_ - 2) (by rw [hl1]; exact hlen) (le_refl _) (by omega) (by rw [hl1]; omega)
      hcond1 (2 * (end_ - start) + 1) (by omega)
    rw [hex]
    simp only []
    have hv1 : arr1[end_ - 1]? = some arr[start + (end_ - start) / 2] := by
      rw [hse1, hpv]
    obtain ⟨c1, _, _, _, c5, _⟩ := partition_loop_ok arr[start + (end_ - start) / 2] start
      (end_ - 1) _ arr1 start (end_ - 2) ex hex (by rw [hl1]; exact hlen)
      (by rw [hl1]; omega) hv1 (le_refl _) (by omega) (by omega)
      (by intro k x hk1 hk2; omega) (by intro k x hk1 hk2; omega)
    cases hs2 : swap ex.arr ex.left_index (end_ - 1) with
    | error f =>
      exfalso
      unfold swap at hs2
      have e1 : ex.arr[ex.left_index]? = some ex.arr[ex.left_index] :=
        List.getElem?_eq_getElem (by omega)
      have e2 : ex.arr[end_ - 1]? = some ex.arr[end_ - 1] :=
        List.getElem?_eq_getElem (by omega)
      simp [e1, e2] at hs2
    | ok arr2 => exact ⟨arr2, ex.left_index, rfl⟩

/-! ## Claims on `quicksort` and `partition` -/

/-- C1: order property.  If `quicksort( arr, 0, N, threshold )` on a buffer of `N`
elements returns success, each worker having run `quicksort` on its region of the same
buffer, then the resulting buffer still has `N` elements and `arr[i] <= arr[i+1]` for
every adjacent pair of positions. -/
theorem quicksort_sorted (O : List Bool → Fate) (fuel : Nat) (proc : List Bool)
    (arr : List Int) (par_threshold : Nat) (r : Run)
    (hN : arr.length < ULONG_SIZE)
    (hrun : quicksort O fuel proc arr 0 arr.length par_threshold = .ok r)
    (hsuccess : r.ret ≠ 0) :
    r.arr.length = arr.length ∧
    ∀ (i : Nat) (h : i + 1 < r.arr.length), r.arr[i] ≤ r.arr[i + 1] := by
  obtain ⟨h1, _, _, h4⟩ := quicksort_post O fuel proc arr 0 arr.length par_threshold r hrun hN
  refine ⟨h1, ?_⟩
  intro i h
  exact h4 hsuccess i (i + 1) _ _ (Nat.zero_le _) (Nat.lt_succ_self _) (by omega)
    (List.getElem?_eq_getElem (by omega)) (List.getElem?_eq_getElem h)

/-- C1 (witness): `[9,1,8,2,7,3,6,4,5]` with threshold 2 is sorted into
`[1,2,3,4,5,6,7,8,9]` with success. -/
theorem quicksort_sorted_witness :
    (quicksort allGood 9 [] [9, 1, 8, 2, 7, 3, 6, 4, 5] 0 9 2).toOption.map
        (fun r => (r.ret, r.arr)) = some (1, [1, 2, 3, 4, 5, 6, 7, 8, 9]) ∧
    ∀ r, quicksort allGood 9 [] [9, 1, 8, 2, 7, 3, 6, 4, 5] 0 9 2 = .ok r → r.ret ≠ 0 →
      r.arr.length = 9 ∧ ∀ (i : Nat) (h : i + 1 < r.arr.length), r.arr[i] ≤ r.arr[i + 1] :=
  ⟨by rfl, fun r hrun hs =>
    quicksort_sorted allGood 9 [] [9, 1, 8, 2, 7, 3, 6, 4, 5] 2 r (by decide) hrun hs⟩

/-- C2: permutation property.  If `quicksort( arr, 0, N, threshold )` returns success,
the resulting buffer is a permutation of the input buffer. -/
theorem quicksort_perm (O : List Bool → Fate) (fuel : Nat) (proc : List Bool)
    (arr : List Int) (par_threshold : Nat) (r : Run)
    (hN : arr.length < ULONG_SIZE)
    (hrun : quicksort O fuel proc arr 0 arr.length par_threshold = .ok r)
    (_hsuccess : r.ret ≠ 0) :
    r.arr.Perm arr :=
  (quicksort_post O fuel proc arr 0 arr.length par_threshold r hrun hN).2.1

/-- C2 (witness): the sort of `[1,3,2,3,1]` with threshold 2 succeeds and its result
is a permutation of the input. -/
theorem quicksort_perm_witness :
    (quicksort allGood 5 [] [1, 3, 2, 3, 1] 0 5 2).toOption.map
        (fun r => (r.ret, r.arr)) = some (1, [1, 1, 2, 3, 3]) ∧
    ∀ r, quicksort allGood 5 [] [1, 3, 2, 3, 1] 0 5 2 = .ok r → r.ret ≠ 0 →
      r.arr.Perm [1, 3, 2, 3, 1] :=
  ⟨by rfl, fun r hrun hs =>
    quicksort_perm allGood 5 [] [1, 3, 2, 3, 1] 2 r (by decide) hrun hs⟩

/-- C3 (failing input): on the two-element buffer `[2, 1]` with `start = 0`, `end = 2`
the pivot is 1, no element is smaller, `right_index` is decremented from 0 to
`2^64 - 1` and `partition` reads `arr[2^64 - 1]`, outside the buffer; no pivot index
is returned.  The same happens on `[4, 4, 4, 4]` and `[3, 1, 2]`, while the region
`[1, 3)` of `[0, 2, 1]`, which holds the same two values away from index 0, is
partitioned as the contract says. -/
theorem partition_fails_at_zero :
    partition [2, 1] 0 2 = .error Fault.outOfBounds ∧
    partition_loop 1 5 [2, 1] 0 0 = .error Fault.outOfBounds ∧
    partition_loop 1 4 [2, 1] 0 (ULONG_SIZE - 1) = .error Fault.outOfBounds ∧
    partition [4, 4, 4, 4] 0 4 = .error Fault.outOfBounds ∧
    partition [3, 1, 2] 0 3 = .error Fault.outOfBounds ∧
    partition [0, 2, 1] 1 3 = .ok ([0, 1, 2], 1) := by
  refine ⟨by rfl, by rfl, by rfl, by rfl, by rfl, by rfl⟩

/-- C4: trivial region.  For every buffer, every region with `end - start` equal to 0
or 1 and every threshold, `quicksort` returns 1, leaves the buffer unchanged and makes
no system call (no worker is spawned); the result does not depend on the threshold and
the buffer is not accessed, the `len < 2` test being decided first. -/
theorem quicksort_trivial (O : List Bool → Fate) (fuel : Nat) (proc : List Bool)
    (arr : List Int) (start end_ par_threshold : Nat)
    (hse : start ≤ end_) (hlen : end_ - start = 0 ∨ end_ - start = 1) :
    quicksort O (fuel + 1) proc arr start end_ par_threshold = .ok ⟨1, arr, []⟩ :=
  quicksort_lt_two O fuel proc arr start end_ par_threshold hse (by omega)

/-- C4 (witness): `[]` with threshold 1 and `[5]` with threshold 0. -/
theorem quicksort_trivial_witness :
    quicksort allGood 1 [] [] 0 0 1 = .ok ⟨1, [], []⟩ ∧
    quicksort allGood 1 [] [5] 0 1 0 = .ok ⟨1, [5], []⟩ :=
  ⟨quicksort_trivial allGood 0 [] [] 0 0 1 (by decide) (by decide),
   quicksort_trivial allGood 0 [] [5] 0 1 0 (by decide) (by decide)⟩

/-- C5 (counterexample): with threshold 0 the region `[0, 1)` of `[5]` has length
exactly `threshold + 1`, and `quicksort` returns success without any `fork`. -/
theorem threshold_zero_no_spawn :
    (1 - 0 = 0 + 1) ∧
    quicksort allGood 1 [] [5] 0 1 0 = .ok ⟨1, [5], []⟩ ∧
    ¬ ∃ (fuel : Nat) (r : Run) (p : List Bool) (s e : Nat) (f : Bool),
        quicksort allGood fuel [] [5] 0 1 0 = .ok r ∧ Event.fork p s e f ∈ r.log := by
  refine ⟨rfl, rfl, ?_⟩
  rintro ⟨fuel, r, p, s, e, f, hr, hm⟩
  cases fuel with
  | zero => simp [quicksort] at hr
  | succ n =>
    rw [quicksort_lt_two allGood n [] [5] 0 1 0 (by decide) (by decide)] at hr
    simp only [Except.ok.injEq] at hr
    subst hr
    simp at hm

/-- C5 (as amended): a call on a region of length exactly `threshold` inside the
buffer returns success without any system call (no spawn), the region being left as it
is when `threshold < 2` and sorted by `qsort` otherwise; for a threshold of at
least 1, a call on a region of length exactly `threshold + 1` takes the parallel path:
`partition` is called and, when the call returns, its first two system calls are the
`fork` for `[start, mid)` and the `fork` for `[mid+1, end)`. -/
theorem threshold_boundary (O : List Bool → Fate) (fuel : Nat) (proc : List Bool)
    (arr : List Int) (start end_ par_threshold : Nat)
    (hN : arr.length < ULONG_SIZE) (hse : start ≤ end_) (hb : end_ ≤ arr.length) :
    (end_ - start = par_threshold →
      ∃ a, quicksort O (fuel + 1) proc arr start end_ par_threshold = .ok ⟨1, a, []⟩ ∧
        (par_threshold < 2 → a = arr) ∧
        (2 ≤ par_threshold → qsort arr start par_threshold = .ok a)) ∧
    (1 ≤ par_threshold → end_ - start = par_threshold + 1 →
      ∀ r, quicksort O (fuel + 1) proc arr start end_ par_threshold = .ok r →
        ∃ arr1 mid rest, partition arr start end_ = .ok (arr1, mid) ∧
          r.log = Event.fork proc start mid (O (proc ++ [false])).fork.isNone ::
            Event.fork proc (mid + 1) end_ (O (proc ++ [true])).fork.isNone :: rest) := by
  constructor
  · intro hlen
    by_cases h2 : end_ - start < 2
    · exact ⟨arr, quicksort_lt_two O fuel proc arr start end_ par_threshold hse h2,
        fun _ => rfl, fun h => by omega⟩
    · have hq : start + par_threshold ≤ arr.length := by omega
      refine ⟨arr.take start
          ++ ((arr.drop start).take par_threshold).insertionSort (fun a b => compare a b ≤ 0)
          ++ arr.drop (start + par_threshold), ?_, fun h => by omega, fun _ => ?_⟩
      · have h2' : ¬ par_threshold < 2 := by omega
        rw [quicksort]
        simp only [ge_iff_le, hse, not_true_eq_false, if_false, hlen, h2', le_refl, if_true,
          qsort, hq]
      · simp only [qsort, hq, if_true]
  · intro ht hlen r hr
    obtain ⟨arr1, mid, cl, cr, hp, _, _, _, _, _, hlog⟩ :=
      quicksort_parallel_inv hr (by omega) (by omega)
    obtain ⟨_, _, _, _, _, _, p7, _⟩ := partition_ok hp hN
    have hmid : (mid + 1) % ULONG_SIZE = mid + 1 := by
      rw [ULONG_SIZE_eq]; rw [ULONG_SIZE_eq] at hN; omega
    rw [hmid] at hlog
    rw [hlog]
    simp only [List.cons_append, List.nil_append, List.append_assoc]
    exact ⟨arr1, mid, _, hp, rfl⟩

/-- C5 (witness): `[3,1,2]` with threshold 3 is sorted without a spawn, and `[1,3,2]`
with threshold 2 spawns its two workers. -/
theorem threshold_boundary_witness :
    (∃ a, quicksort allGood 1 [] [3, 1, 2] 0 3 3 = .ok ⟨1, a, []⟩ ∧
        (3 < 2 → a = [3, 1, 2]) ∧ (2 ≤ 3 → qsort [3, 1, 2] 0 3 = .ok a)) ∧
    (∀ r, quicksort allGood 3 [] [1, 3, 2] 0 3 2 = .ok r →
        ∃ arr1 mid rest, partition [1, 3, 2] 0 3 = .ok (arr1, mid) ∧
          r.log = Event.fork [] 0 mid (allGood ([] ++ [false])).fork.isNone ::
            Event.fork [] (mid + 1) 3 (allGood ([] ++ [true])).fork.isNone :: rest) ∧
    (quicksort allGood 3 [] [1, 3, 2] 0 3 2).toOption.map Run.arr = some [1, 2, 3] :=
  ⟨(threshold_boundary allGood 0 [] [3, 1, 2] 0 3 3 (by decide) (by decide) (by decide)).1 rfl,
   (threshold_boundary allGood 2 [] [1, 3, 2] 0 3 2 (by decide) (by decide) (by decide)).2
      (by decide) rfl,
   by rfl⟩

/-- C8: `child_succeeded` is a function of the handle alone (it returns only an `int`,
the handle is not among its results): it is 1 exactly when `fork_failed` is clear, the
handle has been waited on, the cached status is not the wait-failure marker -1, the
status denotes a normal exit and the exit code is 0; in every other case it is 0, in
particular for a worker that exited with code 1. -/
theorem child_succeeded_spec (c : child_state_t) :
    (c.fork_failed ≠ 0 → child_succeeded c = 0) ∧
    (c.waited = 0 → child_succeeded c = 0) ∧
    (c.wait_status = -1 → child_succeeded c = 0) ∧
    (WIFEXITED c.wait_status = false → child_succeeded c = 0) ∧
    (c.fork_failed = 0 → c.waited ≠ 0 → c.wait_status ≠ -1 →
      WIFEXITED c.wait_status = true →
      (WEXITSTATUS c.wait_status = 0 → child_succeeded c = 1) ∧
      (WEXITSTATUS c.wait_status ≠ 0 → child_succeeded c = 0)) ∧
    (c.fork_failed = 0 → c.waited ≠ 0 → c.wait_status = W_EXITCODE 1 →
      child_succeeded c = 0) := by
  refine ⟨?_, ?_, ?_, ?_, ?_, ?_⟩
  · intro h; simp [child_succeeded, h]
  · intro h; simp [child_succeeded, h]
  · intro h; simp [child_succeeded, h]
  · intro h; simp [child_succeeded, h]
  · intro h1 h2 h3 h4
    constructor
    · intro h5; simp [child_succeeded, h1, h2, h3, h4, h5]
    · intro h5; simp [child_succeeded, h1, h2, h3, h4, h5]
  · intro h1 h2 h3
    have h4 : WEXITSTATUS c.wait_status = 1 := by
      rw [h3]; exact WEXITSTATUS_W_EXITCODE 1 (by decide) (by decide)
    simp [child_succeeded, h1, h2, h4]

/-- C9: `child_wait` on a handle with `fork_failed` set returns 0, does not call
`waitpid` and leaves the handle unchanged; on a fresh handle whose `waitpid` fails it
returns 0; on a fresh handle whose `waitpid` succeeds with status `s` it returns 1 and
the handle then has `waited = 1`, `wait_status = s` and the same `pid` and
`fork_failed`. -/
theorem child_wait_spec (waitpid : Int → Option Int) (c : child_state_t) :
    (c.fork_failed ≠ 0 → child_wait waitpid c = ⟨0, c, []⟩) ∧
    (c.fork_failed = 0 → c.waited = 0 → waitpid c.pid = none →
      (child_wait waitpid c).ret = 0) ∧
    (∀ s : Int, c.fork_failed = 0 → c.waited = 0 → waitpid c.pid = some s →
      (child_wait waitpid c).ret = 1 ∧
      (child_wait waitpid c).child.waited = 1 ∧
      (child_wait waitpid c).child.wait_status = s ∧
      (child_wait waitpid c).child.pid = c.pid ∧
      (child_wait waitpid c).child.fork_failed = c.fork_failed ∧
      (child_wait waitpid c).calls = [c.pid]) := by
  refine ⟨?_, ?_, ?_⟩
  · intro h; simp [child_wait, h]
  · intro h1 h2 h3; simp [child_wait, h1, h2, h3]
  · intro s h1 h2 h3; simp [child_wait, h1, h2, h3]

/-- C11: comparator.  For all integers `a` and `b` (the comparator only tests `<` and
`>`, so nothing can overflow at `INT64_MIN` or `INT64_MAX`), `compare` is negative
exactly when `a < b`, positive exactly when `a > b` and 0 exactly when `a = b`; its
sign is antisymmetric and the order it induces is transitive and total; and it agrees
with the test of `partition`: the scan loop extends the left partition over an element
`x` exactly when `compare x pivot < 0`. -/
theorem compare_spec (a b c : Int) :
    (compare a b < 0 ↔ a < b) ∧ (compare a b > 0 ↔ a > b) ∧ (compare a b = 0 ↔ a = b) ∧
    (compare a b = -1 ∨ compare a b = 0 ∨ compare a b = 1) ∧
    Int.sign (compare a b) = - Int.sign (compare b a) ∧
    (compare a b ≤ 0 → compare b c ≤ 0 → compare a c ≤ 0) ∧
    (compare a b < 0 → compare b c < 0 → compare a c < 0) ∧
    (compare a b ≤ 0 ∨ compare b a ≤ 0) ∧
    (∀ (fuel : Nat) (arr : List Int) (left right : Nat),
      left ≤ right → arr[left]? = some a →
      (compare a b < 0 →
        partition_loop b (fuel + 1) arr left right =
          partition_loop b fuel arr ((left + 1) % ULONG_SIZE) right) ∧
      (¬ compare a b < 0 → ∀ y, arr[right]? = some y →
        (compare y b < 0 →
          partition_loop b (fuel + 1) arr left right =
            match swap arr left right with
            | .error f => .error f
            | .ok arr1 => partition_loop b fuel arr1 left right) ∧
        (¬ compare y b < 0 →
          partition_loop b (fuel + 1) arr left right =
            partition_loop b fuel arr left ((right + (ULONG_SIZE - 1)) % ULONG_SIZE)))) := by
  have hab : (compare a b < 0 ↔ a < b) ∧ (compare a b > 0 ↔ a > b) ∧
      (compare a b = 0 ↔ a = b) ∧ (compare a b = -1 ∨ compare a b = 0 ∨ compare a b = 1) := by
    unfold compare
    split
    · simp; omega
    · split
      · simp; omega
      · simp; omega
  have hba : (compare b a < 0 ↔ b < a) ∧ (compare b a > 0 ↔ b > a) ∧
      (compare b a = 0 ↔ b = a) ∧ (compare b a = -1 ∨ compare b a = 0 ∨ compare b a = 1) := by
    unfold compare
    split
    · simp; omega
    · split
      · simp; omega
      · simp; omega
  have hlt : ∀ x y : Int, compare x y < 0 ↔ x < y := by
    intro x y
    unfold compare
    split
    · simp; omega
    · split
      · simp; omega
      · simp; omega
  obtain ⟨h1, h2, h3, h4⟩ := hab
  obtain ⟨g1, g2, g3, g4⟩ := hba
  refine ⟨h1, h2, h3, h4, ?_, ?_, ?_, ?_, ?_⟩
  · rcases h4 with h | h | h <;> rcases g4 with g | g | g <;> rw [h, g] <;>
      first
      | decide
      | (exfalso; rw [h] at h1 h2 h3; rw [g] at g1 g2 g3; simp at h1 h2 h3 g1 g2 g3; omega)
  · simp only [compare_le_zero_iff]; omega
  · simp only [hlt]; omega
  · simp only [compare_le_zero_iff]; omega
  · intro fuel arr left right hlr hal
    constructor
    · intro hc
      have hx : a < b := h1.mp hc
      rw [partition_loop]
      simp [hlr, hal, hx]
    · intro hc y hy
      have hx : ¬ a < b := fun h => hc (h1.mpr h)
      constructor
      · intro hyc
        have hyb : ¬ y ≥ b := by
          have := (hlt y b).mp hyc
          omega
        rw [partition_loop]
        simp only [hlr, if_true, hal, hx, if_false, hy, hyb]
        try rfl
      · intro hyc
        have hyb : y ≥ b := by
          have : ¬ y < b := fun h => hyc ((hlt y b).mpr h)
          omega
        rw [partition_loop]
        simp only [hlr, if_true, hal, hx, if_false, hy, hyb]

/-- C12 (failing input): the sorted buffer `[4, 4, 4, 4]` with threshold 0 and every
`fork` and `waitpid` succeeding.  The root call partitions `[0, 4)` around the pivot 4;
no element is smaller, `right_index` is decremented below 0 and `partition` reads
outside the buffer: the call does not report success, for any fuel.  The same happens
on `[1, 1]` with threshold 1. -/
theorem sorted_duplicates_fail :
    List.Sorted (· ≤ ·) ([4, 4, 4, 4] : List Int) ∧
    quicksort allGood 5 [] [4, 4, 4, 4] 0 4 0 = .error Fault.outOfBounds ∧
    (¬ ∃ (fuel : Nat) (r : Run), quicksort allGood fuel [] [4, 4, 4, 4] 0 4 0 = .ok r) ∧
    quicksort allGood 3 [] [1, 1] 0 2 1 = .error Fault.outOfBounds := by
  refine ⟨by decide, by rfl, ?_, by rfl⟩
  rintro ⟨fuel, r, h⟩
  cases fuel with
  | zero => simp [quicksort] at h
  | succ n =>
    have hp : partition [4, 4, 4, 4] 0 4 = .error Fault.outOfBounds := by rfl
    rw [quicksort] at h
    simp [hp] at h

/-- C13 (failing input): the region `[0, 2)` of `[4, 4]`, all elements equal.  After
the pivot is stashed the scan loop starts with `left_index = right_index = 0` and
pivot 4; its first iteration decrements `right_index` to `2^64 - 1`, so the loop test
`left_index <= right_index` holds again, and the second iteration reads
`arr[2^64 - 1]`, outside the buffer.  The loop is never left with
`left_index > right_index`, whatever the fuel. -/
theorem scan_loop_all_equal :
    partition_loop 4 1 [4, 4] 0 0 = .error Fault.outOfFuel ∧
    (0 + (ULONG_SIZE - 1)) % ULONG_SIZE = 18446744073709551615 ∧
    (0 : Nat) ≤ 18446744073709551615 ∧
    partition_loop 4 2 [4, 4] 0 0 = .error Fault.outOfBounds ∧
    (¬ ∃ (fuel : Nat) (ex : LoopExit), partition_loop 4 fuel [4, 4] 0 0 = .ok ex) ∧
    partition [4, 4] 0 2 = .error Fault.outOfBounds := by
  refine ⟨by rfl, by rfl, by decide, by rfl, ?_, by rfl⟩
  rintro ⟨fuel, ex, h⟩
  match fuel with
  | 0 => simp [partition_loop] at h
  | 1 => simp [partition_loop] at h
  | n + 2 =>
    rw [partition_loop] at h
    simp only [le_refl, if_true, List.getElem?_cons_zero, lt_self_iff_false, if_false,
      ge_iff_le] at h
    have h3 : (0 + (ULONG_SIZE - 1)) % ULONG_SIZE = 18446744073709551615 := by rfl
    rw [h3, partition_loop] at h
    have hnone : ([4, 4] : List Int)[18446744073709551615]? = none := by rfl
    simp [hnone] at h

/-- C14: split point validity.  When `partition` returns `mid` for a region
`[start, end)` (necessarily of length at least 2), then `start <= mid <= end - 1`, so
`mid + 1 <= end` (and `mid + 1` does not wrap), the sub-regions `[start, mid)` and
`[mid+1, end)` are disjoint, lie inside `[start, end)`, do not contain `mid`, and each
is strictly shorter than `[start, end)`.  Consequently the recursion of `quicksort` is
at most as deep as the region is long, for every threshold: a fuel above that length
is never exhausted. -/
theorem split_point_valid (arr arr1 : List Int) (start end_ mid : Nat)
    (hN : arr.length < ULONG_SIZE)
    (hp : partition arr start end_ = .ok (arr1, mid)) :
    2 ≤ end_ - start ∧ start ≤ mid ∧ mid ≤ end_ - 1 ∧ mid + 1 ≤ end_ ∧
    (mid + 1) % ULONG_SIZE = mid + 1 ∧
    (∀ k, ¬ ((start ≤ k ∧ k < mid) ∧ (mid + 1 ≤ k ∧ k < end_))) ∧
    (∀ k, (start ≤ k ∧ k < mid) ∨ (mid + 1 ≤ k ∧ k < end_) →
      start ≤ k ∧ k < end_ ∧ k ≠ mid) ∧
    mid - start < end_ - start ∧ end_ - (mid + 1) < end_ - start ∧
    (∀ (O : List Bool → Fate) (fuel : Nat) (proc : List Bool) (par_threshold : Nat),
      end_ - start < fuel →
      quicksort O fuel proc arr start end_ par_threshold ≠ .error Fault.outOfFuel) := by
  obtain ⟨p1, p2, _, _, _, p6, p7, _⟩ := partition_ok hp hN
  have hU := ULONG_SIZE_eq
  refine ⟨by omega, p6, by omega, by omega, by rw [hU]; rw [hU] at hN; omega, ?_, ?_,
    by omega, by omega, ?_⟩
  · intro k hk; omega
  · intro k hk; omega
  · intro O fuel proc thr hf
    exact quicksort_fuel O fuel proc arr start end_ thr hN hf

/-- C14 (witness): `[5,9,1,7,3,8]` is split at index 3, and `[9,1,8,2,7,3,6,4,5]` with
threshold 0 is sorted within a recursion depth of 10. -/
theorem split_point_valid_witness :
    partition [5, 9, 1, 7, 3, 8] 0 6 = .ok ([5, 3, 1, 7, 9, 8], 3) ∧
    (2 ≤ 6 - 0 ∧ 0 ≤ 3 ∧ 3 ≤ 6 - 1 ∧ 3 + 1 ≤ 6 ∧
    (3 + 1) % ULONG_SIZE = 3 + 1 ∧
    (∀ k, ¬ ((0 ≤ k ∧ k < 3) ∧ (3 + 1 ≤ k ∧ k < 6))) ∧
    (∀ k, (0 ≤ k ∧ k < 3) ∨ (3 + 1 ≤ k ∧ k < 6) → 0 ≤ k ∧ k < 6 ∧ k ≠ 3) ∧
    3 - 0 < 6 - 0 ∧ 6 - (3 + 1) < 6 - 0 ∧
    (∀ (O : List Bool → Fate) (fuel : Nat) (proc : List Bool) (par_threshold : Nat),
      6 - 0 < fuel →
      quicksort O fuel proc [5, 9, 1, 7, 3, 8] 0 6 par_threshold ≠ .error Fault.outOfFuel)) ∧
    (quicksort allGood 10 [] [9, 1, 8, 2, 7, 3, 6, 4, 5] 0 9 0).toOption.map
      (fun r => (r.ret, r.arr)) = some (1, [1, 2, 3, 4, 5, 6, 7, 8, 9]) :=
  ⟨rfl,
   split_point_valid [5, 9, 1, 7, 3, 8] [5, 3, 1, 7, 9, 8] 0 6 3 (by decide) rfl,
   by rfl⟩

/-- C16: assertion validity.  No run of `quicksort( arr, 0, N, threshold )` stops at a
failed assertion, whichever call of its recursion tree is concerned: every region
handed to a worker satisfies `start <= end` (and lies inside `[0, N)`), and the two
assertions of `partition` hold on every region of length at least 2, the only regions
on which `quicksort` calls it. -/
theorem assertions_hold (O : List Bool → Fate) (fuel : Nat) (proc : List Bool)
    (arr : List Int) (N par_threshold : Nat)
    (hN : arr.length < ULONG_SIZE) :
    quicksort O fuel proc arr 0 N par_threshold ≠ .error Fault.assertion ∧
    (∀ r, quicksort O fuel proc arr 0 N par_threshold = .ok r →
      ∀ p s e f, Event.fork p s e f ∈ r.log → s ≤ e ∧ e ≤ N) ∧
    (∀ (a : List Int) (s e : Nat), 2 ≤ e - s → partition a s e ≠ .error Fault.assertion) ∧
    (∀ (a : List Int) (s e : Nat), partition a s e = .error Fault.assertion → e - s < 2) := by
  refine ⟨quicksort_no_assert O fuel proc arr 0 N par_threshold hN (Nat.zero_le _), ?_,
    partition_no_assert, ?_⟩
  · intro r hr p s e f hm
    obtain ⟨_, h⟩ := quicksort_log O fuel proc arr 0 N par_threshold r hr hN (Nat.zero_le _) _ hm
    obtain ⟨_, h2, h3⟩ := h p s e f rfl
    exact ⟨h2, h3⟩
  · intro a s e h
    by_contra hc
    exact partition_no_assert a s e (by omega) h

/-- C16 (witness): the run on `[9,1,8,2,7,3,6,4,5]` with threshold 2. -/
theorem assertions_hold_witness :
    quicksort allGood 9 [] [9, 1, 8, 2, 7, 3, 6, 4, 5] 0 9 2 ≠ .error Fault.assertion ∧
    (∀ r, quicksort allGood 9 [] [9, 1, 8, 2, 7, 3, 6, 4, 5] 0 9 2 = .ok r →
      ∀ p s e f, Event.fork p s e f ∈ r.log → s ≤ e ∧ e ≤ 9) :=
  ⟨(assertions_hold allGood 9 [] [9, 1, 8, 2, 7, 3, 6, 4, 5] 9 2 (by decide)).1,
   (assertions_hold allGood 9 [] [9, 1, 8, 2, 7, 3, 6, 4, 5] 9 2 (by decide)).2.1⟩

/-- C18 (failing input): the region `[0, 3)` of `[7, 7, 7]`, in which no element is
smaller than the pivot.  The scan loop starts with `left_index = 0`,
`right_index = 1`; two iterations decrement `right_index` to 0 and then, wrapping
around, to `2^64 - 1`; the next iteration uses that value as an index and reads
`arr[2^64 - 1]`, which is neither in `[0, 3)` nor in the buffer. -/
theorem right_index_wraps :
    partition [7, 7, 7] 0 3 = .error Fault.outOfBounds ∧
    partition_loop 7 3 [7, 7, 7] 0 1 = .error Fault.outOfBounds ∧
    (∀ fuel : Nat, partition_loop 7 (fuel + 2) [7, 7, 7] 0 1 =
      partition_loop 7 fuel [7, 7, 7] 0 18446744073709551615) ∧
    ¬ (18446744073709551615 < 3) ∧
    ([7, 7, 7] : List Int)[18446744073709551615]? = none ∧
    (∀ fuel : Nat, partition_loop 7 (fuel + 1) [7, 7, 7] 0 18446744073709551615 =
      .error Fault.outOfBounds) := by
  refine ⟨by rfl, by rfl, ?_, by decide, by rfl, ?_⟩
  · intro fuel
    rw [partition_loop]
    simp only [zero_le, if_true, List.getElem?_cons_zero, lt_self_iff_false, if_false]
    have h1 : ([7, 7, 7] : List Int)[1]? = some 7 := by rfl
    simp only [h1, ge_iff_le, le_refl, if_true]
    have h2 : (1 + (ULONG_SIZE - 1)) % ULONG_SIZE = 0 := by rfl
    rw [h2, partition_loop]
    simp only [le_refl, if_true, List.getElem?_cons_zero, lt_self_iff_false, if_false,
      ge_iff_le]
    have h3 : (0 + (ULONG_SIZE - 1)) % ULONG_SIZE = 18446744073709551615 := by rfl
    rw [h3]
  · intro fuel
    rw [partition_loop]
    have h4 : ([7, 7, 7] : List Int)[18446744073709551615]? = none := by rfl
    simp [h4]

/-- C19: stable success test.  For every handle and every behaviour of the wait
primitive, each repeated evaluation of `child_wait( h ) && child_succeeded( h )` on the
same handle gives the value of the first evaluation and leaves the handle as the first
evaluation left it; the value is 0 or 1, and when it is 1 the handle has `waited` set,
`fork_failed` clear and a cached status, different from -1, that denotes a normal exit
with code 0.  This expression is the test `quicksort` applies to each worker. -/
theorem success_test_repeat (waitpid : Nat → Int → Option Int) (c : child_state_t)
    (n : Nat) :
    success_test_again waitpid n c = success_test (waitpid 0) c ∧
    ((success_test (waitpid 0) c).1 = 0 ∨ (success_test (waitpid 0) c).1 = 1) ∧
    ((success_test (waitpid 0) c).1 ≠ 0 →
      (success_test (waitpid 0) c).2.waited ≠ 0 ∧
      (success_test (waitpid 0) c).2.fork_failed = 0 ∧
      (success_test (waitpid 0) c).2.wait_status ≠ -1 ∧
      WIFEXITED (success_test (waitpid 0) c).2.wait_status = true ∧
      WEXITSTATUS (success_test (waitpid 0) c).2.wait_status = 0) ∧
    (∀ (fate : Fate) (code : Int),
      worker_ok fate code ↔
        (success_test (waitpid_answer fate code) (quicksort_spawn fate.fork)).1 ≠ 0) := by
  refine ⟨?_, ?_, ?_, ?_⟩
  · induction n generalizing waitpid c with
    | zero => rfl
    | succ k ih =>
      rw [success_test_again, ih]
      exact success_test_stable _ _ c
  · unfold success_test
    dsimp only
    split_ifs <;> simp
  · intro h
    unfold success_test at h ⊢
    dsimp only at h ⊢
    by_cases hw : (child_wait (waitpid 0) c).ret ≠ 0 ∧
        child_succeeded (child_wait (waitpid 0) c).child ≠ 0
    · obtain ⟨a1, a2, a3, a4, a5⟩ := child_succeeded_ne_zero hw.2
      exact ⟨a2, a1, a3, a4, a5⟩
    · simp [hw] at h
  · intro fate code
    unfold worker_ok success_test
    dsimp only
    constructor
    · intro h; simp [h]
    · intro h
      by_contra hn
      simp [hn] at h

end Parsort
